import Mathlib

/-!
# The Yul object model and the analyzer's control-statement rules

A shallow embedding of `libyul/Object.cpp` (`indent`, `Data::toString`,
`Object::toString`, `Object::dataNames`, `Object::subObjectsByDataName`,
`Object::addNamedSubObject`) and of the inline visiting rules of
`libyul/AsmAnalysis.h` for `Break`, `Continue` and `Leave`, followed by
theorems about them.

Conventions of the embedding:
* `YulString` is a `String`; the default-constructed `YulString{}` is `""`.
* `std::set<YulString>` is a duplicate-free `List YulString` (`dataNames_nodup`);
  iteration runs over that list.  The order in which a `std::set` is visited
  depends on `YulString::operator<`, which is declared outside the sources at
  hand, so statements about sets are statements about membership.  The two loops
  that iterate over a set do not depend on the order of the visits: one only
  inserts into a set (`mem_foldl_setInsert`), the other writes a different key
  for each visited name (`at_subObjectsInner`).
* `std::map<YulString, T>` is an association list with unique keys;
  `operator[]` assignment is `YulMap.set`, `count` is `YulMap.count`, and
  `at`, which throws `std::out_of_range` on a missing key, returns an
  `Option`.
* `shared_ptr<ObjectNode>` is the node it points to, so that a node is
  identified with its value.
* `Object::toString` returns an `Except`: `Except.error` carries the message of
  the failed `yulAssert`.  The printer of code blocks, declared outside the
  sources at hand, is a parameter.
-/

namespace Yul

/-! ## Data model -/

/-- Modelled from the spec: the interned name type `YulString` of `libyul/YulString.h`
(not among the sources): value equality, and the empty string as the "unnamed" sentinel. -/
abbrev YulString := String

/-- Modelled from the spec: a source position as carried by AST nodes and diagnostics
(`langutil::SourceLocation`, not among the sources). -/
structure SourceLocation where
  start : Int
  stop : Int
deriving DecidableEq, Repr

/-- Modelled from the spec: the code block owned by an `Object` (`Block` of
`libyul/AsmData.h`, not among the sources).  No function of the sources at hand
inspects its statements, so only its location is kept. -/
structure Block where
  location : SourceLocation
deriving DecidableEq, Repr

/-- Modelled from the spec: `struct Data` of `libyul/Object.h`, a name and an immutable
byte payload. -/
structure Data where
  name : YulString
  data : List (Fin 256)
deriving DecidableEq, Repr

/-- The type `std::map<YulString, T>`, as an association list with unique keys. -/
abbrev YulMap (α : Type) := List (YulString × α)

mutual
/-- Modelled from the spec: `struct Object` of `libyul/Object.h`: a name, an owned code
block (a `shared_ptr` that may be null), the insertion-ordered children `subObjects`
and the index `subIndexByName` from names to positions. -/
inductive Object where
  | mk (name : YulString) (code : Option Block) (subObjects : List ObjectNode)
      (subIndexByName : YulMap Nat)
/-- Modelled from the spec: `struct ObjectNode` of `libyul/Object.h` with its two
subclasses; `dynamic_cast<Object const*>` succeeds exactly on `ObjectNode.object`. -/
inductive ObjectNode where
  | data (d : Data)
  | object (o : Object)
end

mutual
/-- Decision procedure for equality of objects. -/
def Object.decEq : (a b : Object) → Decidable (a = b)
  | .mk n c s i, .mk n' c' s' i' =>
    if h1 : n = n' then
      if h2 : c = c' then
        if h4 : i = i' then
          match ObjectNode.decEqList s s' with
          | isTrue h3 => isTrue (by rw [h1, h2, h3, h4])
          | isFalse h3 => isFalse (fun h => h3 (by injection h))
        else isFalse (fun h => h4 (by injection h))
      else isFalse (fun h => h2 (by injection h))
    else isFalse (fun h => h1 (by injection h))
/-- Decision procedure for equality of nodes. -/
def ObjectNode.decEq : (a b : ObjectNode) → Decidable (a = b)
  | .data d, .data e =>
    if h : d = e then isTrue (by rw [h]) else isFalse (fun h' => h (by injection h'))
  | .object o, .object p =>
    match Object.decEq o p with
    | isTrue h => isTrue (by rw [h])
    | isFalse h => isFalse (fun h' => h (by injection h'))
  | .data _, .object _ => isFalse (fun h => by cases h)
  | .object _, .data _ => isFalse (fun h => by cases h)
/-- Decision procedure for equality of child sequences. -/
def ObjectNode.decEqList : (a b : List ObjectNode) → Decidable (a = b)
  | [], [] => isTrue rfl
  | [], _ :: _ => isFalse (fun h => by cases h)
  | _ :: _, [] => isFalse (fun h => by cases h)
  | x :: xs, y :: ys =>
    match ObjectNode.decEq x y with
    | isTrue h =>
      match ObjectNode.decEqList xs ys with
      | isTrue h' => isTrue (by rw [h, h'])
      | isFalse h' => isFalse (fun e => h' (by injection e))
    | isFalse h => isFalse (fun e => h (by injection e))
end

instance : DecidableEq Object := Object.decEq

instance : DecidableEq ObjectNode := ObjectNode.decEq

/-- The member `Object::name`. -/
def Object.name : Object → YulString
  | .mk n _ _ _ => n

/-- The member `Object::code`. -/
def Object.code : Object → Option Block
  | .mk _ c _ _ => c

/-- The member `Object::subObjects`. -/
def Object.subObjects : Object → List ObjectNode
  | .mk _ _ s _ => s

/-- The member `Object::subIndexByName`. -/
def Object.subIndexByName : Object → YulMap Nat
  | .mk _ _ _ i => i

/-- The member `ObjectNode::name`, shared by both subclasses. -/
def ObjectNode.name : ObjectNode → YulString
  | .data d => d.name
  | .object o => o.name

/-! ## Containers -/

/-- The lookup `std::map::at`: `none` stands for the `std::out_of_range` exception. -/
def YulMap.at {α : Type} : YulMap α → YulString → Option α
  | [], _ => none
  | (k, v) :: rest, key => if k = key then some v else YulMap.at rest key

/-- The query `std::map::count`: 1 when the key is present, 0 otherwise. -/
def YulMap.count {α : Type} (m : YulMap α) (key : YulString) : Nat :=
  if (m.at key).isSome then 1 else 0

/-- The assignment `m[key] = v`: overwrites the value of a present key, adds the
entry otherwise. -/
def YulMap.set {α : Type} : YulMap α → YulString → α → YulMap α
  | [], key, v => [(key, v)]
  | (k, w) :: rest, key, v =>
    if k = key then (key, v) :: rest else (k, w) :: YulMap.set rest key v

/-- The call `std::set::insert`: no effect when the element is present. -/
def setInsert (x : YulString) (s : List YulString) : List YulString :=
  if x ∈ s then s else s ++ [x]

/-- The call `std::set::erase` by key. -/
def setErase (x : YulString) (s : List YulString) : List YulString :=
  s.filter (fun n => n ≠ x)

/-! ## `Object.cpp` -/

mutual
/-- Embeds `Object::dataNames` (Object.cpp:64-78). -/
def Object.dataNames : Object → List YulString
  | .mk name _ subObjects _ =>
    setErase "" (dataNamesLoop subObjects (setInsert name []))
/-- The loop over `subObjects` of `Object::dataNames` (Object.cpp:68-74), threading
the set `names`. -/
def dataNamesLoop : List ObjectNode → List YulString → List YulString
  | [], names => names
  | .data d :: rest, names => dataNamesLoop rest (setInsert d.name names)
  | .object subObject :: rest, names =>
    dataNamesLoop rest
      ((subObject.dataNames).foldl
        (fun acc subSubObj => setInsert (subObject.name ++ "." ++ subSubObj) acc)
        (setInsert subObject.name names))
end

mutual
/-- Embeds `Object::subObjectsByDataName` (Object.cpp:80-100); `none` is the
`std::out_of_range` exception of `.at`. -/
def Object.subObjectsByDataName : Object → Option (YulMap ObjectNode)
  | .mk _ _ subObjects _ => subObjectsByDataNameLoop subObjects []
/-- The loop over `subObjects` of `Object::subObjectsByDataName` (Object.cpp:83-97),
threading the map `objectsByDataName`; the inner loop runs over the data names of
the child. -/
def subObjectsByDataNameLoop :
    List ObjectNode → YulMap ObjectNode → Option (YulMap ObjectNode)
  | [], objectsByDataName => some objectsByDataName
  | .data _ :: rest, objectsByDataName => subObjectsByDataNameLoop rest objectsByDataName
  | .object subObject :: rest, objectsByDataName =>
    match (subObject.dataNames).foldlM (fun acc subObjDataName =>
        if subObjDataName = subObject.name then
          some (YulMap.set acc subObject.name (.object subObject))
        else
          match subObject.subObjectsByDataName with
          | none => none
          | some subSubObjects =>
            if subSubObjects.count subObjDataName ≠ 0 then
              match subObject.subObjectsByDataName with
              | none => none
              | some recomputed =>
                match recomputed.at subObjDataName with
                | none => none
                | some target =>
                  some (YulMap.set acc (subObject.name ++ "." ++ subObjDataName) target)
            else some acc) objectsByDataName with
    | none => none
    | some objectsByDataName' => subObjectsByDataNameLoop rest objectsByDataName'
end

/-- Embeds `Object::addNamedSubObject` (Object.cpp:102-109). -/
def Object.addNamedSubObject : Object → YulString → ObjectNode → Object
  | .mk name code subObjects subIndexByName, _name, _subObject =>
    if subIndexByName.count _name = 0 then
      .mk name code (subObjects ++ [_subObject])
        (YulMap.set subIndexByName _name subObjects.length)
    else
      .mk name code subObjects subIndexByName

/-! ## `AsmAnalysis.h` -/

/-- Modelled from the spec: the taxonomy of diagnostics (`liblangutil/Exceptions.h` is
not among the sources). -/
inductive ErrorType where
  | DeclarationError
  | TypeError
  | Warning
deriving DecidableEq, Repr

/-- Modelled from the spec: a typed diagnostic with source location and message. -/
structure Error where
  type : ErrorType
  location : SourceLocation
  description : String
deriving DecidableEq, Repr

/-- Modelled from the spec: the external reporter `langutil::ErrorReporter`, which only
accumulates the diagnostics handed to it. -/
structure ErrorReporter where
  errors : List Error
deriving DecidableEq, Repr

/-- Modelled from the spec: the AST node `Break` of `libyul/AsmData.h`. -/
structure Break where
  location : SourceLocation
deriving DecidableEq, Repr

/-- Modelled from the spec: the AST node `Continue` of `libyul/AsmData.h`. -/
structure Continue where
  location : SourceLocation
deriving DecidableEq, Repr

/-- Modelled from the spec: the AST node `Leave` of `libyul/AsmData.h`. -/
structure Leave where
  location : SourceLocation
deriving DecidableEq, Repr

/-- Modelled from the spec: the AST node `ForLoop` of `libyul/AsmData.h`; the analyzer
only holds a pointer to the loop it is in. -/
structure ForLoop where
  location : SourceLocation
deriving DecidableEq, Repr

/-- The state of `class AsmAnalyzer` (AsmAnalysis.h:124-140) that the rules below can
touch: the diagnostics accumulated by the referenced reporter, the names and objects
handed to the constructor, the needed sub-objects and the pointer to the current
loop.  The class has no member that records a current function.  Members whose types
are declared outside the sources at hand (`m_resolver`, `m_currentScope`,
`m_activeVariables`, `m_info`, `m_evmVersion`, `m_dialect`) are left out. -/
structure AsmAnalyzer where
  m_errorReporter : ErrorReporter
  m_dataNames : List YulString
  m_objectsByDataName : YulMap ObjectNode
  m_allSubObjects : List ObjectNode
  m_currentForLoop : Option ForLoop

/-- The constructor of `AsmAnalyzer` (AsmAnalysis.h:59-76): the reporter and the two
name tables are taken from the arguments, `m_allSubObjects` starts empty and
`m_currentForLoop` is `nullptr`. -/
def AsmAnalyzer.new (_errorReporter : ErrorReporter) (_dataNames : List YulString)
    (_objectsByDataName : YulMap ObjectNode) : AsmAnalyzer :=
  ⟨_errorReporter, _dataNames, _objectsByDataName, [], none⟩

/-- Embeds `void operator()(Break const&) { }` (AsmAnalysis.h:94). -/
def AsmAnalyzer.visitBreak (self : AsmAnalyzer) (_b : Break) : AsmAnalyzer := self

/-- Embeds `void operator()(Continue const&) { }` (AsmAnalysis.h:95). -/
def AsmAnalyzer.visitContinue (self : AsmAnalyzer) (_c : Continue) : AsmAnalyzer := self

/-- Embeds `void operator()(Leave const&) { }` (AsmAnalysis.h:96). -/
def AsmAnalyzer.visitLeave (self : AsmAnalyzer) (_l : Leave) : AsmAnalyzer := self

/-- A step from `before` to `after` records a declaration error when the reporter of
`after` holds, beyond the diagnostics of `before`, one of type `DeclarationError`. -/
def recordsDeclarationError (before after : AsmAnalyzer) : Prop :=
  ∃ e ∈ after.m_errorReporter.errors.drop before.m_errorReporter.errors.length,
    e.type = ErrorType.DeclarationError

/-! ## The object tree of the worked example -/

/-- The source location used by the examples. -/
def noLocation : SourceLocation := ⟨0, 0⟩

/-- The (empty) code block used by the examples. -/
def emptyCode : Option Block := some ⟨noLocation⟩

/-- The object `A`, with the data child `x`. -/
def exampleA : Object := .mk "A" emptyCode [.data ⟨"x", []⟩] [("x", 0)]

/-- The object `C`, with the data child `y`. -/
def exampleC : Object := .mk "C" emptyCode [.data ⟨"y", []⟩] [("y", 0)]

/-- The object `B`, with the object child `C`. -/
def exampleB : Object := .mk "B" emptyCode [.object exampleC] [("C", 0)]

/-- The object `root`, with the object children `A` and `B`. -/
def exampleRoot : Object :=
  .mk "root" emptyCode [.object exampleA, .object exampleB] [("A", 0), ("B", 1)]

/-- A freshly constructed analyzer: no diagnostics, outside any loop and any function. -/
def freshAnalyzer : AsmAnalyzer := AsmAnalyzer.new ⟨[]⟩ [] []

/-! ## Auxiliary definitions for the statements -/

/-- One round of the inner loop of `Object::subObjectsByDataName` (Object.cpp:88-96)
for the child `subObject` and the data name `subObjDataName`, given the map
`subSubObjects` that `subObject->subObjectsByDataName()` returns. -/
def subObjectsInnerStep (subObject : Object) (subSubObjects : YulMap ObjectNode)
    (acc : YulMap ObjectNode) (subObjDataName : YulString) : YulMap ObjectNode :=
  if subObjDataName = subObject.name then
    YulMap.set acc subObject.name (.object subObject)
  else
    match subSubObjects.at subObjDataName with
    | some target => YulMap.set acc (subObject.name ++ "." ++ subObjDataName) target
    | none => acc

/-- The inner loop of `Object::subObjectsByDataName` over the data names `names` of the
child `subObject`, given the map that `subObject->subObjectsByDataName()` returns. -/
def subObjectsInner (subObject : Object) (subSubObjects : YulMap ObjectNode)
    (names : List YulString) (acc : YulMap ObjectNode) : YulMap ObjectNode :=
  names.foldl (subObjectsInnerStep subObject subSubObjects) acc

/-- A node is an Object (and not a Data leaf). -/
def ObjectNode.isObject : ObjectNode → Bool
  | .data _ => false
  | .object _ => true

/-- What one round of the inner loop of `Object::subObjectsByDataName` writes for the
data name `d` of the child `subObject`: the key and the value of the assignment it
performs, or nothing. -/
def subObjectsInnerWrite (subObject : Object) (subSubObjects : YulMap ObjectNode)
    (d : YulString) : Option (YulString × ObjectNode) :=
  if d = subObject.name then
    some (subObject.name, .object subObject)
  else
    match subSubObjects.at d with
    | some target => some (subObject.name ++ "." ++ d, target)
    | none => none

/-- A node name as C4 requires it: not empty and without the character `.`. -/
def validName (n : YulString) : Bool :=
  decide (n ≠ "") && decide ('.' ∉ n.data)

mutual
/-- The naming condition of C4 on the tree below (and including) an object: every
node name is valid and the names of the children of every object are pairwise
distinct. -/
def Object.wellNamed : Object → Bool
  | .mk name _ subObjects _ =>
    validName name && decide ((subObjects.map ObjectNode.name).Nodup) &&
      ObjectNode.wellNamedList subObjects
/-- The naming condition of C4 on every tree of a child sequence. -/
def ObjectNode.wellNamedList : List ObjectNode → Bool
  | [] => true
  | .data d :: rest => validName d.name && ObjectNode.wellNamedList rest
  | .object o :: rest => o.wellNamed && ObjectNode.wellNamedList rest
end

/-- The list `c1, ..., ck` is a chain of Objects below `parent`: `c1` is a direct child
of `parent` and each further element is a direct child of the one before it. -/
def isChain : Object → List Object → Bool
  | _, [] => true
  | parent, c :: cs => decide (ObjectNode.object c ∈ parent.subObjects) && isChain c cs

/-- The dotted name `c1.name + "." + c2.name + ... + "." + ck.name` of a chain. -/
def qualifiedName : List Object → YulString
  | [] => ""
  | [c] => c.name
  | c :: d :: cs => c.name ++ "." ++ qualifiedName (d :: cs)

/-- In a chain of two or more Objects the last one is not named like its parent. -/
def lastNameDiffers : List Object → Bool
  | [] => true
  | [_] => true
  | [p, c] => decide (c.name ≠ p.name)
  | _ :: c :: d :: cs => lastNameDiffers (c :: d :: cs)

/-- An Object `B` without children. -/
def sameNameLeaf : Object := .mk "B" emptyCode [] []

/-- An Object `A` whose only child is the Object `B`. -/
def sameNameInner : Object := .mk "A" emptyCode [.object sameNameLeaf] [("B", 0)]

/-- An Object `A` whose only child is an Object that is also named `A`. -/
def sameNameOuter : Object := .mk "A" emptyCode [.object sameNameInner] [("A", 0)]

/-- A root whose only child is the Object `A` that has a child of its own name. -/
def sameNameRoot : Object := .mk "root" emptyCode [.object sameNameOuter] [("A", 0)]

mutual
/-- The node is a proper descendant of the object: a direct child, or a proper
descendant of a direct child that is an Object. -/
def Object.hasDescendant : Object → ObjectNode → Bool
  | .mk _ _ subObjects _, node => ObjectNode.hasDescendantList subObjects node
/-- The node is in one of the trees of a child sequence. -/
def ObjectNode.hasDescendantList : List ObjectNode → ObjectNode → Bool
  | [], _ => false
  | .data d :: rest, node =>
    decide (node = .data d) || ObjectNode.hasDescendantList rest node
  | .object o :: rest, node =>
    decide (node = .object o) || o.hasDescendant node ||
      ObjectNode.hasDescendantList rest node
end

/-- A finite sequence of `addNamedSubObject` calls, each given by its two arguments,
applied in order to an object. -/
def Object.addNamedSubObjects (o : Object) (calls : List (YulString × ObjectNode)) : Object :=
  calls.foldl (fun acc call => acc.addNamedSubObject call.1 call.2) o

/-- The node passed in the first call of a sequence of calls that used the name `n`. -/
def firstRegistered : List (YulString × ObjectNode) → YulString → Option ObjectNode
  | [], _ => none
  | (k, s) :: rest, n => if k = n then some s else firstRegistered rest n

/-- An object without children and without registered names. -/
def emptyObject : Object := .mk "root" emptyCode [] []

/-- Three calls of `addNamedSubObject`, the third repeating the name of the first. -/
def exampleCalls : List (YulString × ObjectNode) :=
  [("a", .data ⟨"a", [1]⟩), ("b", .data ⟨"b", [2]⟩), ("a", .data ⟨"c", [3]⟩)]

/-- The body of `Object::dataNames` (Object.cpp:64-78) with the recursive call
`subObject->dataNames()` replaced by the argument `self`. -/
def dataNamesBody (self : Object → List YulString) (o : Object) : List YulString :=
  setErase "" (o.subObjects.foldl (fun names subObjectNode =>
    match subObjectNode with
    | .data d => setInsert d.name names
    | .object subObject =>
      (self subObject).foldl
        (fun acc subSubObj => setInsert (subObject.name ++ "." ++ subSubObj) acc)
        (setInsert subObject.name names)) (setInsert o.name []))

/-- The body of `Object::subObjectsByDataName` (Object.cpp:80-100) with the calls
`subObject->dataNames()` and `subObject->subObjectsByDataName()` replaced by the
arguments `names` and `self`. -/
def subObjectsByDataNameBody (names : Object → List YulString)
    (self : Object → Option (YulMap ObjectNode)) (o : Object) :
    Option (YulMap ObjectNode) :=
  o.subObjects.foldlM (fun objectsByDataName subObjectNode =>
    match subObjectNode with
    | .data _ => some objectsByDataName
    | .object subObject =>
      (names subObject).foldlM (fun acc subObjDataName =>
        if subObjDataName = subObject.name then
          some (YulMap.set acc subObject.name (.object subObject))
        else
          match self subObject with
          | none => none
          | some subSubObjects =>
            if subSubObjects.count subObjDataName ≠ 0 then
              match self subObject with
              | none => none
              | some recomputed =>
                match recomputed.at subObjDataName with
                | none => none
                | some target =>
                  some (YulMap.set acc (subObject.name ++ "." ++ subObjDataName) target)
            else some acc) objectsByDataName) []

mutual
/-- The number of nodes of the tree of an object, the object included. -/
def Object.nodeCount : Object → Nat
  | .mk _ _ subObjects _ => 1 + ObjectNode.nodeCountList subObjects
/-- The number of nodes of the trees of a child sequence. -/
def ObjectNode.nodeCountList : List ObjectNode → Nat
  | [] => 0
  | .data _ :: rest => 1 + ObjectNode.nodeCountList rest
  | .object o :: rest => o.nodeCount + ObjectNode.nodeCountList rest
end

/-! ## Textual rendering (`Object.cpp`, lines 39-62) -/

/-- Modelled from the spec: the dialect capability (`Dialect` of `libyul/Dialect.h`, not
among the sources); the rendering only passes it on to the printer. -/
structure Dialect where
  name : String
deriving DecidableEq, Repr

/-- Modelled from the spec: one hexadecimal digit, as printed by `util::toHex`. -/
def hexDigit (n : Nat) : Char :=
  "0123456789abcdef".data.getD n '0'

/-- Modelled from the spec: the helper `util::toHex` of `libsolutil/CommonData.h` (not
among the sources) with its default arguments: the hex bytes of the payload, two
digits per byte in payload order, without a prefix. -/
def toHex : List (Fin 256) → String
  | [] => ""
  | b :: rest => String.mk [hexDigit (b.val / 16), hexDigit (b.val % 16)] ++ toHex rest

/-- The library call `boost::replace_all_copy(s, "\n", "\n    ")` on the characters
of `s`: every newline is followed by four spaces. -/
def replaceNewlines : List Char → List Char
  | [] => []
  | c :: cs =>
    if c = '\n' then '\n' :: ' ' :: ' ' :: ' ' :: ' ' :: replaceNewlines cs
    else c :: replaceNewlines cs

/-- Embeds `indent` (Object.cpp:39-44). -/
def indent (_input : String) : String :=
  if _input = "" then _input
  else String.mk (replaceNewlines ("    " ++ _input).data)

/-- Embeds `Data::toString` (Object.cpp:48-51); the dialect argument is unnamed and
unused in the source. -/
def Data.toString (_dialect : Option Dialect) (d : Data) : String :=
  "data \"" ++ d.name ++ "\" hex\"" ++ toHex d.data ++ "\""

mutual
/-- Embeds `Object::toString` (Object.cpp:53-62).  The printer `AsmPrinter` is declared
outside the sources at hand and is the parameter `asmPrinter`, applied to the dialect
pointer (null or not) and the code block; `Except.error` is the exception thrown by
`yulAssert`. -/
def Object.toString (asmPrinter : Option Dialect → Block → String)
    (_dialect : Option Dialect) : Object → Except String String
  | .mk name code subObjects _ =>
    match code with
    | none => .error "No code"
    | some c =>
      match ObjectNode.toStringLoop asmPrinter _dialect subObjects
          ("code " ++ asmPrinter _dialect c) with
      | .error e => .error e
      | .ok inner => .ok ("object \"" ++ name ++ "\" \x7b\n" ++ indent inner ++ "\n\x7d")
/-- The loop over `subObjects` of `Object::toString` (Object.cpp:58-59), threading the
string `inner`; the call `obj->toString(_dialect)` is virtual. -/
def ObjectNode.toStringLoop (asmPrinter : Option Dialect → Block → String)
    (_dialect : Option Dialect) : List ObjectNode → String → Except String String
  | [], inner => .ok inner
  | .data d :: rest, inner =>
    ObjectNode.toStringLoop asmPrinter _dialect rest (inner ++ ("\n" ++ d.toString _dialect))
  | .object o :: rest, inner =>
    match o.toString asmPrinter _dialect with
    | .error e => .error e
    | .ok s => ObjectNode.toStringLoop asmPrinter _dialect rest (inner ++ ("\n" ++ s))
end

/-- The virtual method `ObjectNode::toString`, dispatched on the subclass. -/
def ObjectNode.toString (asmPrinter : Option Dialect → Block → String)
    (_dialect : Option Dialect) : ObjectNode → Except String String
  | .data d => .ok (d.toString _dialect)
  | .object o => o.toString asmPrinter _dialect

mutual
/-- Every Object of the tree of an object, the object included, has a code block. -/
def Object.allHaveCode : Object → Bool
  | .mk _ code subObjects _ => code.isSome && ObjectNode.allHaveCodeList subObjects
/-- Every Object in the trees of a child sequence has a code block. -/
def ObjectNode.allHaveCodeList : List ObjectNode → Bool
  | [] => true
  | .data _ :: rest => ObjectNode.allHaveCodeList rest
  | .object o :: rest => o.allHaveCode && ObjectNode.allHaveCodeList rest
end

/-- The concatenation of a list of strings, in order. -/
def concatAll : List String → String
  | [] => ""
  | s :: rest => s ++ concatAll rest

/-- The lines of a text given by its characters: the pieces between newlines. -/
def splitLines : List Char → List (List Char)
  | [] => [[]]
  | c :: cs =>
    if c = '\n' then [] :: splitLines cs
    else
      match splitLines cs with
      | [] => [[c]]
      | l :: ls => (c :: l) :: ls

/-- The lines of a string. -/
def lines (s : String) : List String :=
  (splitLines s.data).map String.mk

/-- A printer for the examples: every code block is printed as `{ }`. -/
def examplePrinter : Option Dialect → Block → String :=
  fun _ _ => "\x7b \x7d"

/-- A Data node with a three-byte payload. -/
def exampleData : Data := ⟨"blob", [0, 171, 255]⟩

/-! ## Sets and maps -/

theorem mem_setInsert (n x : YulString) (s : List YulString) :
    n ∈ setInsert x s ↔ n = x ∨ n ∈ s := by
  unfold setInsert
  by_cases h : x ∈ s
  · simp only [h, if_true]
    constructor
    · intro hn; exact Or.inr hn
    · rintro (rfl | hn)
      · exact h
      · exact hn
  · simp only [h, if_false, List.mem_append, List.mem_singleton]
    tauto

theorem mem_setErase (n x : YulString) (s : List YulString) :
    n ∈ setErase x s ↔ n ∈ s ∧ n ≠ x := by
  simp [setErase]

theorem nodup_setInsert (x : YulString) (s : List YulString) (h : s.Nodup) :
    (setInsert x s).Nodup := by
  unfold setInsert
  by_cases hx : x ∈ s
  · simpa [hx] using h
  · simp only [hx, if_false]
    refine List.Nodup.append h (List.nodup_singleton x) ?_
    intro a ha hb
    rw [List.mem_singleton] at hb
    exact hx (hb ▸ ha)

theorem mem_foldl_setInsert (f : YulString → YulString) (l : List YulString) :
    ∀ (init : List YulString) (n : YulString),
      n ∈ l.foldl (fun acc s => setInsert (f s) acc) init ↔ n ∈ init ∨ ∃ m ∈ l, n = f m := by
  induction l with
  | nil => intro init n; simp
  | cons a t ih =>
    intro init n
    rw [List.foldl_cons, ih, mem_setInsert]
    simp only [List.mem_cons, exists_eq_or_imp]
    tauto

theorem YulMap.at_set {α : Type} (m : YulMap α) (key : YulString) (v : α) (k : YulString) :
    (YulMap.set m key v).at k = if k = key then some v else m.at k := by
  induction m with
  | nil =>
    by_cases h : k = key
    · simp [YulMap.set, YulMap.at, h]
    · have h' : ¬ key = k := fun e => h e.symm
      simp [YulMap.set, YulMap.at, h, h']
  | cons p rest ih =>
    obtain ⟨k0, w⟩ := p
    by_cases h0 : k0 = key
    · by_cases h : k = key
      · simp [YulMap.set, YulMap.at, h0, h]
      · have h' : ¬ key = k := fun e => h e.symm
        simp [YulMap.set, YulMap.at, h0, h, h']
    · by_cases h : k = key
      · subst h
        simp [YulMap.set, YulMap.at, h0, ih]
      · simp [YulMap.set, YulMap.at, h0, h, ih]

theorem YulMap.count_eq_zero {α : Type} (m : YulMap α) (key : YulString) :
    m.count key = 0 ↔ m.at key = none := by
  unfold YulMap.count
  cases h : m.at key <;> simp

theorem YulMap.count_ne_zero {α : Type} (m : YulMap α) (key : YulString) :
    m.count key ≠ 0 ↔ ∃ v, m.at key = some v := by
  unfold YulMap.count
  cases h : m.at key <;> simp

/-! ## `dataNames` -/

theorem mem_dataNamesLoop (subObjects : List ObjectNode) :
    ∀ (names : List YulString) (n : YulString),
      n ∈ dataNamesLoop subObjects names ↔
        n ∈ names ∨ (∃ c ∈ subObjects, n = c.name) ∨
          ∃ sub, ObjectNode.object sub ∈ subObjects ∧
            ∃ m ∈ sub.dataNames, n = sub.name ++ "." ++ m := by
  induction subObjects with
  | nil => intro names n; simp [dataNamesLoop]
  | cons c rest ih =>
    intro names n
    cases c with
    | data d =>
      rw [dataNamesLoop, ih, mem_setInsert]
      constructor
      · rintro ((h | h) | ⟨c, hc, h⟩ | ⟨sub, hs, h⟩)
        · exact Or.inr (Or.inl ⟨.data d, List.mem_cons_self _ _, h⟩)
        · exact Or.inl h
        · exact Or.inr (Or.inl ⟨c, List.mem_cons_of_mem _ hc, h⟩)
        · exact Or.inr (Or.inr ⟨sub, List.mem_cons_of_mem _ hs, h⟩)
      · rintro (h | ⟨c, hc, h⟩ | ⟨sub, hs, h⟩)
        · exact Or.inl (Or.inr h)
        · rcases List.mem_cons.mp hc with hc | hc
          · subst hc; exact Or.inl (Or.inl h)
          · exact Or.inr (Or.inl ⟨c, hc, h⟩)
        · rcases List.mem_cons.mp hs with hs | hs
          · cases hs
          · exact Or.inr (Or.inr ⟨sub, hs, h⟩)
    | object o =>
      rw [dataNamesLoop, ih, mem_foldl_setInsert, mem_setInsert]
      constructor
      · rintro (((h | h) | ⟨m, hm, h⟩) | ⟨c, hc, h⟩ | ⟨sub, hs, h⟩)
        · exact Or.inr (Or.inl ⟨.object o, List.mem_cons_self _ _, h⟩)
        · exact Or.inl h
        · exact Or.inr (Or.inr ⟨o, List.mem_cons_self _ _, m, hm, h⟩)
        · exact Or.inr (Or.inl ⟨c, List.mem_cons_of_mem _ hc, h⟩)
        · exact Or.inr (Or.inr ⟨sub, List.mem_cons_of_mem _ hs, h⟩)
      · rintro (h | ⟨c, hc, h⟩ | ⟨sub, hs, m, hm, h⟩)
        · exact Or.inl (Or.inl (Or.inr h))
        · rcases List.mem_cons.mp hc with hc | hc
          · subst hc; exact Or.inl (Or.inl (Or.inl h))
          · exact Or.inr (Or.inl ⟨c, hc, h⟩)
        · rcases List.mem_cons.mp hs with hs | hs
          · cases hs; exact Or.inl (Or.inr ⟨m, hm, h⟩)
          · exact Or.inr (Or.inr ⟨sub, hs, m, hm, h⟩)

theorem nodup_foldl_setInsert (f : YulString → YulString) (l : List YulString) :
    ∀ init : List YulString, init.Nodup →
      (l.foldl (fun acc s => setInsert (f s) acc) init).Nodup := by
  induction l with
  | nil => intro init h; exact h
  | cons a t ih =>
    intro init h
    rw [List.foldl_cons]
    exact ih _ (nodup_setInsert _ _ h)

theorem nodup_dataNamesLoop (subObjects : List ObjectNode) :
    ∀ names : List YulString, names.Nodup → (dataNamesLoop subObjects names).Nodup := by
  induction subObjects with
  | nil => intro names h; rw [dataNamesLoop]; exact h
  | cons c rest ih =>
    intro names h
    cases c with
    | data d =>
      rw [dataNamesLoop]
      exact ih _ (nodup_setInsert _ _ h)
    | object o =>
      rw [dataNamesLoop]
      exact ih _ (nodup_foldl_setInsert _ _ _ (nodup_setInsert _ _ h))

/-- The list that stands for the set returned by `dataNames` has no duplicates. -/
theorem dataNames_nodup (o : Object) : o.dataNames.Nodup := by
  cases o with
  | mk name code subObjects subIndexByName =>
    rw [Object.dataNames, setErase]
    exact List.Nodup.filter _
      (nodup_dataNamesLoop subObjects _ (nodup_setInsert _ _ List.nodup_nil))

theorem append_dot_ne_empty (a b : YulString) : a ++ "." ++ b ≠ "" := by
  intro h
  have h1 := congrArg String.length h
  simp only [String.length_append] at h1
  have h2 : ".".length = 1 := by decide
  have h3 : "".length = 0 := by decide
  omega

theorem Object.mem_dataNames (o : Object) (n : YulString) :
    n ∈ o.dataNames ↔
      n ≠ "" ∧ (n = o.name ∨ (∃ c ∈ o.subObjects, n = c.name) ∨
        ∃ sub, ObjectNode.object sub ∈ o.subObjects ∧
          ∃ m ∈ sub.dataNames, n = sub.name ++ "." ++ m) := by
  cases o with
  | mk name code subObjects subIndexByName =>
    rw [Object.dataNames, mem_setErase, mem_dataNamesLoop, mem_setInsert]
    simp only [Object.name, Object.subObjects, List.not_mem_nil, or_false]
    exact and_comm

/-- C3: a name is in `o.dataNames()` exactly when it is not the empty identifier and is
the name of `o`, or the name of a direct child of `o`, or `c.name + "." + m` for a
direct child `c` that is an Object and some `m` in `c.dataNames()`. -/
theorem mem_dataNames_iff (o : Object) (n : YulString) :
    n ∈ o.dataNames ↔
      n ≠ "" ∧ (n = o.name ∨ (∃ c ∈ o.subObjects, n = c.name) ∨
        ∃ c : Object, ObjectNode.object c ∈ o.subObjects ∧
          ∃ m ∈ c.dataNames, n = c.name ++ "." ++ m) :=
  Object.mem_dataNames o n

/-- C7: for every Object, whatever its own name and the names of its children (the
empty identifier included), `dataNames()` does not contain the empty identifier. -/
theorem empty_not_mem_dataNames (o : Object) : "" ∉ o.dataNames := by
  cases o with
  | mk name code subObjects subIndexByName =>
    rw [Object.dataNames, mem_setErase]
    exact fun h => h.2 rfl

/-! ## The worked example -/

theorem dataNames_exampleRoot_eq :
    exampleRoot.dataNames =
      ["root", "A", "A.A", "A.x", "B", "B.B", "B.C", "B.C.C", "B.C.y"] := by
  decide

/-- C1, as stated, fails: on the example tree `dataNames()` of the root is not the set
of the six names `root`, `A`, `A.x`, `B`, `B.C`, `B.C.y`, since it also holds `A.A`. -/
theorem dataNames_exampleRoot_not_six :
    ¬ (∀ n : YulString, n ∈ exampleRoot.dataNames ↔
        n ∈ ["root", "A", "A.x", "B", "B.C", "B.C.y"]) := by
  intro h
  have h1 : "A.A" ∈ exampleRoot.dataNames := by
    rw [dataNames_exampleRoot_eq]; decide
  have h2 : "A.A" ∉ ["root", "A", "A.x", "B", "B.C", "B.C.y"] := by decide
  exact h2 ((h "A.A").mp h1)

/-- C1, amended: on the example tree `dataNames()` of the root is exactly the set
`root`, `A`, `A.A`, `A.x`, `B`, `B.B`, `B.C`, `B.C.C`, `B.C.y`: the six names of the
claim together with the three names in which an Object child repeats its own name
under its own qualifier, and no other name. -/
theorem dataNames_exampleRoot (n : YulString) :
    n ∈ exampleRoot.dataNames ↔
      n ∈ ["root", "A", "A.x", "B", "B.C", "B.C.y"] ∨ n ∈ ["A.A", "B.B", "B.C.C"] := by
  rw [dataNames_exampleRoot_eq]
  simp only [List.mem_cons, List.mem_singleton, List.not_mem_nil, or_false]
  tauto

/-- C2: on the example tree `subObjectsByDataName()` of the root returns the map with
exactly the three entries `A -> node A`, `B -> node B`, `B.C -> node C`; a key is
mapped if and only if it is one of these three, so `A.x` and `B.C.y` are not keys. -/
theorem subObjectsByDataName_exampleRoot :
    ∃ m : YulMap ObjectNode, exampleRoot.subObjectsByDataName = some m ∧
      m = [("A", .object exampleA), ("B", .object exampleB), ("B.C", .object exampleC)] ∧
      (∀ (k : YulString) (v : ObjectNode), m.at k = some v ↔
          (k = "A" ∧ v = .object exampleA) ∨ (k = "B" ∧ v = .object exampleB) ∨
            (k = "B.C" ∧ v = .object exampleC)) ∧
      m.at "A.x" = none ∧ m.at "B.C.y" = none := by
  refine ⟨_, by decide, rfl, ?_, by decide, by decide⟩
  intro k v
  simp only [YulMap.at]
  by_cases h1 : "A" = k
  · subst h1
    simp [eq_comm]
  · by_cases h2 : "B" = k
    · subst h2
      simp [eq_comm]
    · by_cases h3 : "B.C" = k
      · subst h3
        simp [eq_comm]
      · have h1' : ¬ k = "A" := fun e => h1 e.symm
        have h2' : ¬ k = "B" := fun e => h2 e.symm
        have h3' : ¬ k = "B.C" := fun e => h3 e.symm
        simp [h1, h2, h3, h1', h2', h3']

/-! ## `addNamedSubObject` -/

theorem count_addNamedSubObject (o : Object) (n : YulString) (s : ObjectNode) :
    (o.addNamedSubObject n s).subIndexByName.count n ≠ 0 := by
  cases o with
  | mk name code subObjects subIndexByName =>
    by_cases h : subIndexByName.count n = 0
    · simp only [Object.addNamedSubObject, h, if_true, Object.subIndexByName]
      rw [YulMap.count_ne_zero, YulMap.at_set]
      exact ⟨_, if_pos rfl⟩
    · rw [Object.addNamedSubObject, if_neg h]
      exact h

theorem addNamedSubObject_of_count_ne_zero (o : Object) (n : YulString) (s : ObjectNode)
    (h : o.subIndexByName.count n ≠ 0) : o.addNamedSubObject n s = o := by
  cases o with
  | mk name code subObjects subIndexByName =>
    simp only [Object.subIndexByName] at h
    simp only [Object.addNamedSubObject, h, if_false]

/-- C5: when `n` is already a key of `o.subIndexByName`, `addNamedSubObject(n, s)`
leaves `o` unchanged: the same child sequence and the same index (indeed the same
object); and for every object, a second call with the same name (whatever node it
passes) changes nothing after the first. -/
theorem addNamedSubObject_registered (o : Object) (n : YulString) (s : ObjectNode)
    (h : o.subIndexByName.count n ≠ 0) :
    (o.addNamedSubObject n s).subObjects = o.subObjects ∧
      (o.addNamedSubObject n s).subIndexByName = o.subIndexByName ∧
      o.addNamedSubObject n s = o ∧
      ∀ (p : Object) (s1 s2 : ObjectNode),
        (p.addNamedSubObject n s1).addNamedSubObject n s2 = p.addNamedSubObject n s1 := by
  have e := addNamedSubObject_of_count_ne_zero o n s h
  refine ⟨by rw [e], by rw [e], e, ?_⟩
  intro p s1 s2
  exact addNamedSubObject_of_count_ne_zero _ n s2 (count_addNamedSubObject p n s1)

theorem addNamedSubObject_registered_witness :
    exampleRoot.subIndexByName.count "A" ≠ 0 ∧
      (exampleRoot.addNamedSubObject "A" (.data ⟨"z", [1, 2]⟩)).subObjects =
        exampleRoot.subObjects ∧
      (exampleRoot.addNamedSubObject "A" (.data ⟨"z", [1, 2]⟩)).subIndexByName =
        exampleRoot.subIndexByName :=
  ⟨by decide,
    (addNamedSubObject_registered exampleRoot "A" (.data ⟨"z", [1, 2]⟩) (by decide)).1,
    (addNamedSubObject_registered exampleRoot "A" (.data ⟨"z", [1, 2]⟩) (by decide)).2.1⟩

/-- C6: when `n` is not a key of `o.subIndexByName`, after `addNamedSubObject(n, s)`
the child sequence is the old one with `s` appended (every earlier position holds
the child it held, the position at the old length holds `s`), `subIndexByName` maps
`n` to the old length, and every other key is looked up as before; name and code of
the object are untouched. -/
theorem addNamedSubObject_fresh (o : Object) (n : YulString) (s : ObjectNode)
    (h : o.subIndexByName.count n = 0) :
    (o.addNamedSubObject n s).subObjects = o.subObjects ++ [s] ∧
      (∀ i, i < o.subObjects.length →
        (o.addNamedSubObject n s).subObjects[i]? = o.subObjects[i]?) ∧
      (o.addNamedSubObject n s).subObjects[o.subObjects.length]? = some s ∧
      (o.addNamedSubObject n s).subIndexByName.at n = some o.subObjects.length ∧
      (∀ k, k ≠ n →
        (o.addNamedSubObject n s).subIndexByName.at k = o.subIndexByName.at k) ∧
      (o.addNamedSubObject n s).name = o.name ∧
      (o.addNamedSubObject n s).code = o.code := by
  cases o with
  | mk name code subObjects subIndexByName =>
    simp only [Object.subIndexByName] at h
    rw [Object.addNamedSubObject, if_pos h]
    simp only [Object.subObjects, Object.subIndexByName, Object.name, Object.code]
    refine ⟨trivial, ?_, ?_, ?_, ?_, trivial, trivial⟩
    · intro i hi
      exact List.getElem?_append_left hi
    · simp
    · rw [YulMap.at_set]; exact if_pos rfl
    · intro k hk
      rw [YulMap.at_set]; exact if_neg hk

theorem addNamedSubObject_fresh_witness :
    exampleRoot.subIndexByName.count "D" = 0 ∧
      (exampleRoot.addNamedSubObject "D" (.data ⟨"D", [7]⟩)).subObjects =
        exampleRoot.subObjects ++ [.data ⟨"D", [7]⟩] ∧
      (exampleRoot.addNamedSubObject "D" (.data ⟨"D", [7]⟩)).subIndexByName.at "D" =
        some 2 :=
  ⟨by decide,
    (addNamedSubObject_fresh exampleRoot "D" (.data ⟨"D", [7]⟩) (by decide)).1,
    (addNamedSubObject_fresh exampleRoot "D" (.data ⟨"D", [7]⟩) (by decide)).2.2.2.1⟩

/-! ## The analyzer's rules for `break`, `continue` and `leave` -/

theorem not_recordsDeclarationError_self (a : AsmAnalyzer) : ¬ recordsDeclarationError a a := by
  rintro ⟨e, he, -⟩
  simp at he

/-- C9, as stated, fails: the freshly constructed analyzer is outside any loop
(`m_currentForLoop` is null), and neither the rule for `Break` nor the rule for
`Continue` records a declaration error on it. -/
theorem visitBreak_fresh_no_error :
    freshAnalyzer.m_currentForLoop = none ∧
      ¬ recordsDeclarationError freshAnalyzer (freshAnalyzer.visitBreak ⟨noLocation⟩) ∧
      ¬ recordsDeclarationError freshAnalyzer (freshAnalyzer.visitContinue ⟨noLocation⟩) :=
  ⟨rfl, not_recordsDeclarationError_self _, not_recordsDeclarationError_self _⟩

/-- C9, amended: in every analyzer state, whether the current-loop context is null or
not, the analyzer's rules for `Break` and for `Continue` leave the state as it is and
record no declaration error. -/
theorem visitBreak_visitContinue_unchanged (a : AsmAnalyzer) (b : Break) (c : Continue) :
    a.visitBreak b = a ∧ a.visitContinue c = a ∧
      ¬ recordsDeclarationError a (a.visitBreak b) ∧
      ¬ recordsDeclarationError a (a.visitContinue c) :=
  ⟨rfl, rfl, not_recordsDeclarationError_self a, not_recordsDeclarationError_self a⟩

/-- C10, as stated, fails: the freshly constructed analyzer has entered no function
body, and the rule for `Leave` records no declaration error on it. -/
theorem visitLeave_fresh_no_error :
    (freshAnalyzer.visitLeave ⟨noLocation⟩).m_errorReporter.errors = [] ∧
      ¬ recordsDeclarationError freshAnalyzer (freshAnalyzer.visitLeave ⟨noLocation⟩) :=
  ⟨rfl, not_recordsDeclarationError_self _⟩

/-- C10, amended: in every analyzer state the analyzer's rule for `Leave` leaves the
state as it is and records no declaration error; the state holds no current-function
context that the rule could consult. -/
theorem visitLeave_unchanged (a : AsmAnalyzer) (l : Leave) :
    a.visitLeave l = a ∧ ¬ recordsDeclarationError a (a.visitLeave l) :=
  ⟨rfl, not_recordsDeclarationError_self a⟩

/-! ## Induction over the object tree -/

mutual
theorem Object.induction_on_children (P : Object → Prop)
    (step : ∀ o : Object, (∀ sub, ObjectNode.object sub ∈ o.subObjects → P sub) → P o) :
    ∀ o : Object, P o
  | .mk n c subs i =>
    step (.mk n c subs i) (fun sub h => ObjectNode.induction_list_aux P step subs sub h)
theorem ObjectNode.induction_list_aux (P : Object → Prop)
    (step : ∀ o : Object, (∀ sub, ObjectNode.object sub ∈ o.subObjects → P sub) → P o) :
    ∀ (l : List ObjectNode) (sub : Object), ObjectNode.object sub ∈ l → P sub
  | [], _, h => absurd h (List.not_mem_nil _)
  | .data _ :: rest, sub, h =>
    ObjectNode.induction_list_aux P step rest sub (by
      rcases List.mem_cons.mp h with h | h
      · cases h
      · exact h)
  | .object o :: rest, sub, h =>
    if e : sub = o then e ▸ Object.induction_on_children P step o
    else ObjectNode.induction_list_aux P step rest sub (by
      rcases List.mem_cons.mp h with h | h
      · cases h; exact absurd rfl e
      · exact h)
end

/-! ## `subObjectsByDataName` -/

theorem subObjectsByDataNameLoop_object (sub : Object) (sm : YulMap ObjectNode)
    (hs : sub.subObjectsByDataName = some sm) (rest : List ObjectNode)
    (acc : YulMap ObjectNode) :
    subObjectsByDataNameLoop (.object sub :: rest) acc =
      subObjectsByDataNameLoop rest (subObjectsInner sub sm sub.dataNames acc) := by
  rw [subObjectsByDataNameLoop]
  have key : ∀ (names : List YulString) (a : YulMap ObjectNode),
      names.foldlM (fun acc subObjDataName =>
        if subObjDataName = sub.name then
          some (YulMap.set acc sub.name (.object sub))
        else
          match sub.subObjectsByDataName with
          | none => none
          | some subSubObjects =>
            if subSubObjects.count subObjDataName ≠ 0 then
              match sub.subObjectsByDataName with
              | none => none
              | some recomputed =>
                match recomputed.at subObjDataName with
                | none => none
                | some target =>
                  some (YulMap.set acc (sub.name ++ "." ++ subObjDataName) target)
            else some acc) a = some (subObjectsInner sub sm names a) := by
    intro names
    induction names with
    | nil => intro a; rfl
    | cons d t ih =>
      intro a
      rw [List.foldlM_cons]
      have hstep : (if d = sub.name then
          some (YulMap.set a sub.name (.object sub))
        else
          match sub.subObjectsByDataName with
          | none => none
          | some subSubObjects =>
            if subSubObjects.count d ≠ 0 then
              match sub.subObjectsByDataName with
              | none => none
              | some recomputed =>
                match recomputed.at d with
                | none => none
                | some target =>
                  some (YulMap.set a (sub.name ++ "." ++ d) target)
            else some a) = some (subObjectsInnerStep sub sm a d) := by
        unfold subObjectsInnerStep
        by_cases hd : d = sub.name
        · rw [if_pos hd, if_pos hd]
        · rw [if_neg hd, if_neg hd, hs]
          cases hat : sm.at d with
          | none =>
            have hc : sm.count d = 0 := (YulMap.count_eq_zero sm d).mpr hat
            simp [hc]
          | some v =>
            have hc : sm.count d ≠ 0 := (YulMap.count_ne_zero sm d).mpr ⟨v, hat⟩
            simp [hc, hat]
      rw [hstep]
      show (some (subObjectsInnerStep sub sm a d)).bind _ = _
      rw [Option.some_bind, ih]
      rfl
  rw [key]

theorem subObjectsByDataNameLoop_total (subs : List ObjectNode)
    (h : ∀ sub, ObjectNode.object sub ∈ subs → ∃ m, sub.subObjectsByDataName = some m) :
    ∀ acc : YulMap ObjectNode, ∃ m, subObjectsByDataNameLoop subs acc = some m := by
  induction subs with
  | nil => intro acc; exact ⟨acc, by rw [subObjectsByDataNameLoop]⟩
  | cons c rest ih =>
    have h' : ∀ sub, ObjectNode.object sub ∈ rest → ∃ m, sub.subObjectsByDataName = some m :=
      fun sub hs => h sub (List.mem_cons_of_mem _ hs)
    intro acc
    cases c with
    | data d =>
      rw [subObjectsByDataNameLoop]
      exact ih h' acc
    | object o =>
      obtain ⟨sm, hsm⟩ := h o (List.mem_cons_self _ _)
      rw [subObjectsByDataNameLoop_object o sm hsm]
      exact ih h' _

theorem Object.subObjectsByDataName_eq (o : Object) :
    o.subObjectsByDataName = subObjectsByDataNameLoop o.subObjects [] := by
  cases o with
  | mk n c subs i => rw [Object.subObjectsByDataName, Object.subObjects]

/-- The function `subObjectsByDataName` returns a map on every object: the lookup with
`.at` never throws. -/
theorem Object.subObjectsByDataName_total (o : Object) :
    ∃ m, o.subObjectsByDataName = some m := by
  induction o using Object.induction_on_children with
  | step o ih =>
    rw [Object.subObjectsByDataName_eq]
    exact subObjectsByDataNameLoop_total o.subObjects ih []

theorem YulMap.mem_set {α : Type} (m : YulMap α) (key : YulString) (v : α)
    (p : YulString × α) (h : p ∈ YulMap.set m key v) : p = (key, v) ∨ p ∈ m := by
  induction m with
  | nil =>
    simp only [YulMap.set, List.mem_singleton] at h
    exact Or.inl h
  | cons q rest ih =>
    obtain ⟨k0, w⟩ := q
    by_cases h0 : k0 = key
    · simp only [YulMap.set, h0, if_true, List.mem_cons] at h
      rcases h with h | h
      · exact Or.inl h
      · exact Or.inr (List.mem_cons_of_mem _ h)
    · simp only [YulMap.set, h0, if_false, List.mem_cons] at h
      rcases h with h | h
      · exact Or.inr (h ▸ List.mem_cons_self _ _)
      · rcases ih h with h | h
        · exact Or.inl h
        · exact Or.inr (List.mem_cons_of_mem _ h)

theorem YulMap.mem_of_at {α : Type} (m : YulMap α) (key : YulString) (v : α)
    (h : m.at key = some v) : (key, v) ∈ m := by
  induction m with
  | nil => simp [YulMap.at] at h
  | cons q rest ih =>
    obtain ⟨k0, w⟩ := q
    by_cases h0 : k0 = key
    · simp only [YulMap.at, h0, if_true, Option.some.injEq] at h
      rw [h0, h]
      exact List.mem_cons_self _ _
    · simp only [YulMap.at, h0, if_false] at h
      exact List.mem_cons_of_mem _ (ih h)

theorem subObjectsInner_values (sub : Object) (sm : YulMap ObjectNode)
    (hsm : ∀ p ∈ sm, p.2.isObject = true) (names : List YulString) :
    ∀ acc : YulMap ObjectNode, (∀ p ∈ acc, p.2.isObject = true) →
      ∀ p ∈ subObjectsInner sub sm names acc, p.2.isObject = true := by
  induction names with
  | nil => intro acc hacc; exact hacc
  | cons d t ih =>
    intro acc hacc
    rw [subObjectsInner, List.foldl_cons]
    apply ih
    intro p hp
    unfold subObjectsInnerStep at hp
    by_cases hd : d = sub.name
    · rw [if_pos hd] at hp
      rcases YulMap.mem_set _ _ _ _ hp with hp | hp
      · rw [hp]; rfl
      · exact hacc p hp
    · rw [if_neg hd] at hp
      cases hat : sm.at d with
      | none =>
        rw [hat] at hp
        exact hacc p hp
      | some v =>
        rw [hat] at hp
        rcases YulMap.mem_set _ _ _ _ hp with hp | hp
        · rw [hp]
          exact hsm (d, v) (YulMap.mem_of_at sm d v hat)
        · exact hacc p hp

theorem subObjectsByDataNameLoop_values (subs : List ObjectNode)
    (h : ∀ sub, ObjectNode.object sub ∈ subs →
      ∀ m, sub.subObjectsByDataName = some m → ∀ p ∈ m, p.2.isObject = true) :
    ∀ acc m : YulMap ObjectNode, (∀ p ∈ acc, p.2.isObject = true) →
      subObjectsByDataNameLoop subs acc = some m → ∀ p ∈ m, p.2.isObject = true := by
  induction subs with
  | nil =>
    intro acc m hacc hm
    rw [subObjectsByDataNameLoop] at hm
    cases hm
    exact hacc
  | cons c rest ih =>
    have h' : ∀ sub, ObjectNode.object sub ∈ rest →
        ∀ m, sub.subObjectsByDataName = some m → ∀ p ∈ m, p.2.isObject = true :=
      fun sub hs => h sub (List.mem_cons_of_mem _ hs)
    intro acc m hacc hm
    cases c with
    | data d =>
      rw [subObjectsByDataNameLoop] at hm
      exact ih h' acc m hacc hm
    | object o =>
      obtain ⟨sm, hsm⟩ := o.subObjectsByDataName_total
      rw [subObjectsByDataNameLoop_object o sm hsm] at hm
      exact ih h' _ m
        (subObjectsInner_values o sm (h o (List.mem_cons_self _ _) sm hsm) _ acc hacc) hm

theorem subObjectsByDataNameLoop_all_data (subs : List ObjectNode)
    (h : ∀ c ∈ subs, c.isObject = false) (acc : YulMap ObjectNode) :
    subObjectsByDataNameLoop subs acc = some acc := by
  induction subs with
  | nil => rw [subObjectsByDataNameLoop]
  | cons c rest ih =>
    cases c with
    | data d =>
      rw [subObjectsByDataNameLoop]
      exact ih (fun c hc => h c (List.mem_cons_of_mem _ hc))
    | object o =>
      have := h (.object o) (List.mem_cons_self _ _)
      simp [ObjectNode.isObject] at this

theorem Object.subObjectsByDataName_values (o : Object) :
    ∀ m, o.subObjectsByDataName = some m → ∀ p ∈ m, p.2.isObject = true := by
  induction o using Object.induction_on_children with
  | step o ih =>
    intro m hm
    rw [Object.subObjectsByDataName_eq] at hm
    exact subObjectsByDataNameLoop_values o.subObjects ih [] m
      (fun p hp => absurd hp (List.not_mem_nil _)) hm

/-- C8: `subObjectsByDataName()` returns a map all of whose values are Object nodes,
none a Data node; and on an Object whose direct children are all Data nodes the map
is empty. -/
theorem subObjectsByDataName_only_objects (o : Object) :
    ∃ m : YulMap ObjectNode, o.subObjectsByDataName = some m ∧
      (∀ (k : YulString) (v : ObjectNode), (k, v) ∈ m →
        (∃ sub : Object, v = .object sub) ∧ ∀ d : Data, v ≠ .data d) ∧
      (∀ (k : YulString) (v : ObjectNode), m.at k = some v →
        (∃ sub : Object, v = .object sub) ∧ ∀ d : Data, v ≠ .data d) ∧
      ((∀ c ∈ o.subObjects, ∃ d : Data, c = .data d) → m = []) := by
  obtain ⟨m, hm⟩ := o.subObjectsByDataName_total
  have hv := o.subObjectsByDataName_values m hm
  have hobj : ∀ (k : YulString) (v : ObjectNode), (k, v) ∈ m →
      (∃ sub : Object, v = .object sub) ∧ ∀ d : Data, v ≠ .data d := by
    intro k v hkv
    have h1 := hv (k, v) hkv
    cases v with
    | data d => simp [ObjectNode.isObject] at h1
    | object sub => exact ⟨⟨sub, rfl⟩, fun d e => by cases e⟩
  refine ⟨m, hm, hobj, fun k v hat => hobj k v (YulMap.mem_of_at m k v hat), ?_⟩
  intro hdata
  rw [Object.subObjectsByDataName_eq, subObjectsByDataNameLoop_all_data] at hm
  · cases hm; rfl
  · intro c hc
    obtain ⟨d, rfl⟩ := hdata c hc
    rfl

theorem subObjectsByDataName_only_objects_witness :
    (∀ c ∈ exampleA.subObjects, ∃ d : Data, c = .data d) ∧
      exampleA.subObjectsByDataName = some [] := by
  have hdata : ∀ c ∈ exampleA.subObjects, ∃ d : Data, c = .data d := by
    intro c hc
    simp only [exampleA, Object.subObjects, List.mem_singleton] at hc
    exact ⟨_, hc⟩
  obtain ⟨m, hm, -, -, hempty⟩ := subObjectsByDataName_only_objects exampleA
  rw [hm, hempty hdata]
  exact ⟨hdata, rfl⟩

/-! ## Dotted names -/

theorem append_sep_inj (c : Char) :
    ∀ (a b x y : List Char), c ∉ a → c ∉ b → a ++ c :: x = b ++ c :: y → a = b ∧ x = y := by
  intro a
  induction a with
  | nil =>
    intro b x y _ hb h
    cases b with
    | nil =>
      simp only [List.nil_append, List.cons.injEq, true_and] at h
      exact ⟨rfl, h⟩
    | cons b0 bt =>
      simp only [List.nil_append, List.cons_append, List.cons.injEq] at h
      exact absurd (h.1 ▸ List.mem_cons_self _ _) hb
  | cons a0 t ih =>
    intro b x y ha hb h
    cases b with
    | nil =>
      simp only [List.nil_append, List.cons_append, List.cons.injEq] at h
      exact absurd (h.1 ▸ List.mem_cons_self _ _) ha
    | cons b0 bt =>
      simp only [List.cons_append, List.cons.injEq] at h
      obtain ⟨h0, ht⟩ := h
      have := ih bt x y (fun hc => ha (List.mem_cons_of_mem _ hc))
        (fun hc => hb (List.mem_cons_of_mem _ hc)) ht
      exact ⟨by rw [h0, this.1], this.2⟩

theorem data_append_dot (a x : YulString) : (a ++ "." ++ x).data = a.data ++ '.' :: x.data := by
  rw [String.data_append, String.data_append]
  simp

theorem dot_mem_append_dot (a x : YulString) : '.' ∈ (a ++ "." ++ x).data := by
  rw [data_append_dot]
  simp

theorem append_dot_inj (a b x y : YulString) (ha : '.' ∉ a.data) (hb : '.' ∉ b.data)
    (h : a ++ "." ++ x = b ++ "." ++ y) : a = b ∧ x = y := by
  have h' := congrArg String.data h
  rw [data_append_dot, data_append_dot] at h'
  have := append_sep_inj '.' a.data b.data x.data y.data ha hb h'
  exact ⟨String.ext this.1, String.ext this.2⟩

theorem append_dot_right_inj (a x y : YulString) (h : a ++ "." ++ x = a ++ "." ++ y) :
    x = y := by
  have h' := congrArg String.data h
  rw [data_append_dot, data_append_dot] at h'
  have := List.append_cancel_left h'
  simp only [List.cons.injEq, true_and] at this
  exact String.ext this

theorem append_dot_ne_self (a x : YulString) : a ++ "." ++ x ≠ a := by
  intro h
  have h1 := congrArg String.length h
  simp only [String.length_append] at h1
  have h2 : ".".length = 1 := by decide
  omega

theorem validName_ne_empty (n : YulString) (h : validName n = true) : n ≠ "" := by
  simp only [validName, Bool.and_eq_true, decide_eq_true_eq] at h
  exact h.1

theorem validName_no_dot (n : YulString) (h : validName n = true) : '.' ∉ n.data := by
  simp only [validName, Bool.and_eq_true, decide_eq_true_eq] at h
  exact h.2

/-! ## The inner loop of `subObjectsByDataName` -/

theorem subObjectsInnerStep_eq (sub : Object) (sm acc : YulMap ObjectNode) (d : YulString) :
    subObjectsInnerStep sub sm acc d =
      match subObjectsInnerWrite sub sm d with
      | some (k, v) => YulMap.set acc k v
      | none => acc := by
  unfold subObjectsInnerStep subObjectsInnerWrite
  by_cases hd : d = sub.name
  · rw [if_pos hd, if_pos hd]
  · rw [if_neg hd, if_neg hd]
    cases sm.at d <;> rfl

theorem subObjectsInnerWrite_key_inj (sub : Object) (sm : YulMap ObjectNode)
    (d d' k : YulString) (v v' : ObjectNode)
    (h : subObjectsInnerWrite sub sm d = some (k, v))
    (h' : subObjectsInnerWrite sub sm d' = some (k, v')) : d = d' := by
  unfold subObjectsInnerWrite at h h'
  by_cases hd : d = sub.name
  · rw [if_pos hd] at h
    simp only [Option.some.injEq, Prod.mk.injEq] at h
    by_cases hd' : d' = sub.name
    · rw [hd, hd']
    · rw [if_neg hd'] at h'
      cases hat : sm.at d' with
      | none => rw [hat] at h'; cases h'
      | some w =>
        rw [hat] at h'
        simp only [Option.some.injEq, Prod.mk.injEq] at h'
        exact absurd (h'.1.trans h.1.symm) (append_dot_ne_self _ _)
  · rw [if_neg hd] at h
    cases hat : sm.at d with
    | none => rw [hat] at h; cases h
    | some w =>
      rw [hat] at h
      simp only [Option.some.injEq, Prod.mk.injEq] at h
      by_cases hd' : d' = sub.name
      · rw [if_pos hd'] at h'
        simp only [Option.some.injEq, Prod.mk.injEq] at h'
        exact absurd (h.1.trans h'.1.symm) (append_dot_ne_self _ _)
      · rw [if_neg hd'] at h'
        cases hat' : sm.at d' with
        | none => rw [hat'] at h'; cases h'
        | some w' =>
          rw [hat'] at h'
          simp only [Option.some.injEq, Prod.mk.injEq] at h'
          exact append_dot_right_inj _ _ _ (h.1.trans h'.1.symm)

/-- The lookups in the result of the inner loop are determined by which data names the
loop visits, not by the order of the visits: a key has the value that some visited
name writes for it, and otherwise the value it had before the loop. -/
theorem at_subObjectsInner (sub : Object) (sm : YulMap ObjectNode) (names : List YulString) :
    ∀ (acc : YulMap ObjectNode) (k : YulString) (v : ObjectNode),
      (subObjectsInner sub sm names acc).at k = some v ↔
        (∃ d ∈ names, subObjectsInnerWrite sub sm d = some (k, v)) ∨
          ((∀ d ∈ names, ∀ w, subObjectsInnerWrite sub sm d ≠ some (k, w)) ∧
            acc.at k = some v) := by
  induction names with
  | nil =>
    intro acc k v
    simp [subObjectsInner]
  | cons x t ih =>
    intro acc k v
    have hstep : ∀ u, (subObjectsInnerStep sub sm acc x).at k = some u ↔
        subObjectsInnerWrite sub sm x = some (k, u) ∨
          ((∀ w, subObjectsInnerWrite sub sm x ≠ some (k, w)) ∧ acc.at k = some u) := by
      intro u
      rw [subObjectsInnerStep_eq]
      cases hw : subObjectsInnerWrite sub sm x with
      | none => simp
      | some p =>
        obtain ⟨k0, v0⟩ := p
        simp only [YulMap.at_set]
        by_cases hk : k = k0
        · subst hk
          simp
        · have hk' : ¬ k0 = k := fun e => hk e.symm
          simp [hk, hk']
    have hfold : subObjectsInner sub sm (x :: t) acc =
        subObjectsInner sub sm t (subObjectsInnerStep sub sm acc x) := rfl
    rw [hfold, ih, hstep]
    constructor
    · rintro (⟨d, hd, hwd⟩ | ⟨hno, hx | ⟨hxno, hacc⟩⟩)
      · exact Or.inl ⟨d, List.mem_cons_of_mem _ hd, hwd⟩
      · exact Or.inl ⟨x, List.mem_cons_self _ _, hx⟩
      · refine Or.inr ⟨?_, hacc⟩
        intro d hd w
        rcases List.mem_cons.mp hd with rfl | hd
        · exact hxno w
        · exact hno d hd w
    · rintro (⟨d, hd, hwd⟩ | ⟨hno, hacc⟩)
      · rcases List.mem_cons.mp hd with rfl | hd
        · by_cases hex : ∃ d' ∈ t, ∃ w, subObjectsInnerWrite sub sm d' = some (k, w)
          · obtain ⟨d', hd', w, hw⟩ := hex
            have := subObjectsInnerWrite_key_inj sub sm d d' k v w hwd hw
            subst this
            exact Or.inl ⟨d, hd', hwd⟩
          · refine Or.inr ⟨?_, Or.inl hwd⟩
            intro d' hd' w hw
            exact hex ⟨d', hd', w, hw⟩
        · exact Or.inl ⟨d, hd, hwd⟩
      · refine Or.inr ⟨fun d hd w => hno d (List.mem_cons_of_mem _ hd) w, Or.inr ⟨?_, hacc⟩⟩
        exact fun w => hno x (List.mem_cons_self _ _) w

theorem subObjectsInnerWrite_key (sub : Object) (sm : YulMap ObjectNode)
    (d k : YulString) (v : ObjectNode) (h : subObjectsInnerWrite sub sm d = some (k, v)) :
    k = sub.name ∨ k = sub.name ++ "." ++ d := by
  unfold subObjectsInnerWrite at h
  by_cases hd : d = sub.name
  · rw [if_pos hd] at h
    simp only [Option.some.injEq, Prod.mk.injEq] at h
    exact Or.inl h.1.symm
  · rw [if_neg hd] at h
    cases hat : sm.at d with
    | none => rw [hat] at h; cases h
    | some w =>
      rw [hat] at h
      simp only [Option.some.injEq, Prod.mk.injEq] at h
      exact Or.inr h.1.symm

theorem at_subObjectsInner_of_not_written (sub : Object) (sm : YulMap ObjectNode)
    (names : List YulString) (acc : YulMap ObjectNode) (k : YulString)
    (h : k ≠ sub.name ∧ ∀ d, k ≠ sub.name ++ "." ++ d) :
    (subObjectsInner sub sm names acc).at k = acc.at k := by
  have hno : ∀ d ∈ names, ∀ w, subObjectsInnerWrite sub sm d ≠ some (k, w) := by
    intro d _ w hw
    rcases subObjectsInnerWrite_key sub sm d k w hw with e | e
    · exact h.1 e
    · exact h.2 d e
  apply Option.ext
  intro v
  rw [Option.mem_def, Option.mem_def, at_subObjectsInner]
  constructor
  · rintro (⟨d, hd, hw⟩ | ⟨_, hacc⟩)
    · exact absurd hw (hno d hd v)
    · exact hacc
  · intro hacc
    exact Or.inr ⟨hno, hacc⟩

/-! ## The outer loop of `subObjectsByDataName` -/

theorem subObjectsByDataNameLoop_at_of_not_written (k : YulString) (subs : List ObjectNode)
    (h : ∀ sub, ObjectNode.object sub ∈ subs →
      k ≠ sub.name ∧ ∀ d, k ≠ sub.name ++ "." ++ d) :
    ∀ acc m : YulMap ObjectNode, subObjectsByDataNameLoop subs acc = some m →
      m.at k = acc.at k := by
  induction subs with
  | nil =>
    intro acc m hm
    rw [subObjectsByDataNameLoop] at hm
    cases hm
    rfl
  | cons c rest ih =>
    have h' : ∀ sub, ObjectNode.object sub ∈ rest →
        k ≠ sub.name ∧ ∀ d, k ≠ sub.name ++ "." ++ d :=
      fun sub hs => h sub (List.mem_cons_of_mem _ hs)
    intro acc m hm
    cases c with
    | data d =>
      rw [subObjectsByDataNameLoop] at hm
      exact ih h' acc m hm
    | object o =>
      obtain ⟨sm, hsm⟩ := o.subObjectsByDataName_total
      rw [subObjectsByDataNameLoop_object o sm hsm] at hm
      rw [ih h' _ m hm]
      exact at_subObjectsInner_of_not_written o sm _ acc k (h o (List.mem_cons_self _ _))

theorem subObjectsByDataNameLoop_at_of_written (k : YulString) (v : ObjectNode)
    (c1 : Object) (sm1 : YulMap ObjectNode) (hsm1 : c1.subObjectsByDataName = some sm1)
    (hin : ∀ a : YulMap ObjectNode, (subObjectsInner c1 sm1 c1.dataNames a).at k = some v)
    (subs : List ObjectNode)
    (hothers : ∀ sub, ObjectNode.object sub ∈ subs → sub ≠ c1 →
      k ≠ sub.name ∧ ∀ d, k ≠ sub.name ++ "." ++ d) :
    ObjectNode.object c1 ∈ subs →
      ∀ acc m : YulMap ObjectNode, subObjectsByDataNameLoop subs acc = some m →
        m.at k = some v := by
  induction subs with
  | nil => intro hc1; exact absurd hc1 (List.not_mem_nil _)
  | cons c rest ih =>
    have hothers' : ∀ sub, ObjectNode.object sub ∈ rest → sub ≠ c1 →
        k ≠ sub.name ∧ ∀ d, k ≠ sub.name ++ "." ++ d :=
      fun sub hs => hothers sub (List.mem_cons_of_mem _ hs)
    intro hc1 acc m hm
    cases c with
    | data d =>
      rw [subObjectsByDataNameLoop] at hm
      rcases List.mem_cons.mp hc1 with e | hc1
      · cases e
      · exact ih hothers' hc1 acc m hm
    | object o =>
      obtain ⟨sm, hsm⟩ := o.subObjectsByDataName_total
      rw [subObjectsByDataNameLoop_object o sm hsm] at hm
      by_cases hrest : ObjectNode.object c1 ∈ rest
      · exact ih hothers' hrest _ m hm
      · rcases List.mem_cons.mp hc1 with e | hc1
        · cases e
          rw [hsm1] at hsm
          cases hsm
          rw [subObjectsByDataNameLoop_at_of_not_written k rest ?_ _ m hm]
          · exact hin acc
          · intro sub hs
            exact hothers' sub hs (fun e => hrest (e ▸ hs))
        · exact absurd hc1 hrest

/-! ## Well-named trees and chains -/

theorem Object.wellNamed_name (o : Object) (h : o.wellNamed = true) :
    validName o.name = true := by
  cases o with
  | mk n c subs i =>
    simp only [Object.wellNamed, Bool.and_eq_true] at h
    exact h.1.1

theorem Object.wellNamed_nodup (o : Object) (h : o.wellNamed = true) :
    (o.subObjects.map ObjectNode.name).Nodup := by
  cases o with
  | mk n c subs i =>
    simp only [Object.wellNamed, Bool.and_eq_true, decide_eq_true_eq] at h
    exact h.1.2

theorem ObjectNode.wellNamedList_mem (subs : List ObjectNode)
    (h : ObjectNode.wellNamedList subs = true) (sub : Object)
    (hs : ObjectNode.object sub ∈ subs) : sub.wellNamed = true := by
  induction subs with
  | nil => exact absurd hs (List.not_mem_nil _)
  | cons c rest ih =>
    cases c with
    | data d =>
      simp only [ObjectNode.wellNamedList, Bool.and_eq_true] at h
      rcases List.mem_cons.mp hs with e | hs
      · cases e
      · exact ih h.2 hs
    | object o =>
      simp only [ObjectNode.wellNamedList, Bool.and_eq_true] at h
      rcases List.mem_cons.mp hs with e | hs
      · cases e; exact h.1
      · exact ih h.2 hs

theorem Object.wellNamed_child (o : Object) (h : o.wellNamed = true) (sub : Object)
    (hs : ObjectNode.object sub ∈ o.subObjects) : sub.wellNamed = true := by
  cases o with
  | mk n c subs i =>
    simp only [Object.wellNamed, Bool.and_eq_true] at h
    exact ObjectNode.wellNamedList_mem subs h.2 sub hs

theorem isChain_cons (parent c : Object) (cs : List Object)
    (h : isChain parent (c :: cs) = true) :
    ObjectNode.object c ∈ parent.subObjects ∧ isChain c cs = true := by
  simp only [isChain, Bool.and_eq_true, decide_eq_true_eq] at h
  exact h

theorem qualifiedName_mem_dataNames :
    ∀ (chain : List Object) (root : Object), root.wellNamed = true →
      isChain root chain = true → chain ≠ [] → qualifiedName chain ∈ root.dataNames := by
  intro chain
  induction chain with
  | nil => intro root _ _ h; exact absurd rfl h
  | cons c1 cs ih =>
    intro root hwn hch _
    obtain ⟨hc1, hcs⟩ := isChain_cons root c1 cs hch
    have hwn1 := root.wellNamed_child hwn c1 hc1
    rw [Object.mem_dataNames]
    cases cs with
    | nil =>
      refine ⟨validName_ne_empty _ (c1.wellNamed_name hwn1), Or.inr (Or.inl ?_)⟩
      exact ⟨.object c1, hc1, rfl⟩
    | cons c2 cs' =>
      refine ⟨append_dot_ne_empty _ _, Or.inr (Or.inr ?_)⟩
      exact ⟨c1, hc1, qualifiedName (c2 :: cs'), ih c1 hwn1 hcs (List.cons_ne_nil _ _), rfl⟩

theorem qualifiedName_cons_form (c1 : Object) (cs : List Object) :
    qualifiedName (c1 :: cs) = c1.name ∨
      ∃ r, qualifiedName (c1 :: cs) = c1.name ++ "." ++ r := by
  cases cs with
  | nil => exact Or.inl rfl
  | cons c2 cs' => exact Or.inr ⟨_, rfl⟩

theorem not_written_by_sibling (c1 sub : Object) (k : YulString)
    (hk : k = c1.name ∨ ∃ r, k = c1.name ++ "." ++ r)
    (h1 : validName c1.name = true) (h2 : validName sub.name = true)
    (hne : sub.name ≠ c1.name) :
    k ≠ sub.name ∧ ∀ d, k ≠ sub.name ++ "." ++ d := by
  have n1 := validName_no_dot _ h1
  have n2 := validName_no_dot _ h2
  rcases hk with hk | ⟨r, hk⟩
  · subst hk
    refine ⟨fun e => hne e.symm, fun d e => ?_⟩
    exact n1 (e ▸ dot_mem_append_dot sub.name d)
  · subst hk
    refine ⟨fun e => ?_, fun d e => ?_⟩
    · exact n2 (e ▸ dot_mem_append_dot c1.name r)
    · exact hne (append_dot_inj _ _ _ _ n1 n2 e).1.symm

theorem at_qualifiedName :
    ∀ (chain : List Object) (root ck : Object), root.wellNamed = true →
      isChain root chain = true → chain.getLast? = some ck →
      lastNameDiffers chain = true →
      ∃ m, root.subObjectsByDataName = some m ∧
        m.at (qualifiedName chain) = some (.object ck) := by
  intro chain
  induction chain with
  | nil => intro root ck _ _ h; cases h
  | cons c1 cs ih =>
    intro root ck hwn hch hlast hdiff
    obtain ⟨hc1, hcs⟩ := isChain_cons root c1 cs hch
    have hwn1 := root.wellNamed_child hwn c1 hc1
    have hv1 := c1.wellNamed_name hwn1
    obtain ⟨m, hm⟩ := root.subObjectsByDataName_total
    refine ⟨m, hm, ?_⟩
    obtain ⟨sm1, hsm1⟩ := c1.subObjectsByDataName_total
    rw [Object.subObjectsByDataName_eq] at hm
    refine subObjectsByDataNameLoop_at_of_written (qualifiedName (c1 :: cs)) (.object ck)
      c1 sm1 hsm1 ?_ root.subObjects ?_ hc1 [] m hm
    · intro a
      rw [at_subObjectsInner]
      left
      cases cs with
      | nil =>
        simp only [List.getLast?_singleton, Option.some.injEq] at hlast
        subst hlast
        refine ⟨c1.name, ?_, ?_⟩
        · rw [Object.mem_dataNames]
          exact ⟨validName_ne_empty _ hv1, Or.inl rfl⟩
        · unfold subObjectsInnerWrite
          rw [if_pos rfl]
          rfl
      | cons c2 cs' =>
        have hlast' : (c2 :: cs').getLast? = some ck := by
          rw [List.getLast?_cons_cons] at hlast
          exact hlast
        have hdiff' : lastNameDiffers (c2 :: cs') = true := by
          cases cs' with
          | nil => rfl
          | cons c3 cs'' => simpa only [lastNameDiffers] using hdiff
        obtain ⟨m1, hm1, hat1⟩ := ih c1 ck hwn1 hcs hlast' hdiff'
        rw [hsm1] at hm1
        cases hm1
        have hne : qualifiedName (c2 :: cs') ≠ c1.name := by
          cases cs' with
          | nil =>
            simp only [lastNameDiffers, decide_eq_true_eq] at hdiff
            exact hdiff
          | cons c3 cs'' =>
            intro e
            exact validName_no_dot _ hv1 (e ▸ dot_mem_append_dot c2.name _)
        refine ⟨qualifiedName (c2 :: cs'), ?_, ?_⟩
        · exact qualifiedName_mem_dataNames _ c1 hwn1 hcs (List.cons_ne_nil _ _)
        · unfold subObjectsInnerWrite
          rw [if_neg hne, hat1]
          rfl
    · intro sub hs hsub
      have hwns := root.wellNamed_child hwn sub hs
      refine not_written_by_sibling c1 sub _ (qualifiedName_cons_form c1 cs) hv1
        (sub.wellNamed_name hwns) ?_
      intro e
      have hinj := List.inj_on_of_nodup_map (root.wellNamed_nodup hwn) hs hc1
        (by simpa only [ObjectNode.name] using e)
      cases hinj
      exact hsub rfl

/-! ## Addressing nested objects by their dotted name -/

/-- C4, as stated, fails: in the tree `root { A { A { B } } }` all names are non-empty,
free of `.` and distinct among siblings, and the outer `A` followed by the inner `A`
is a chain of Objects below the root, but the map of the root has no key `A.A`. -/
theorem subObjectsByDataName_sameName_unaddressed :
    sameNameRoot.wellNamed = true ∧
      isChain sameNameRoot [sameNameOuter, sameNameInner] = true ∧
      qualifiedName [sameNameOuter, sameNameInner] = "A.A" ∧
      ∃ m : YulMap ObjectNode, sameNameRoot.subObjectsByDataName = some m ∧
        m.at (qualifiedName [sameNameOuter, sameNameInner]) = none ∧
        m.count (qualifiedName [sameNameOuter, sameNameInner]) = 0 := by
  refine ⟨by decide, by decide, by decide, ?_⟩
  exact ⟨[("A", .object sameNameOuter), ("A.A.B", .object sameNameLeaf)],
    by decide, by decide, by decide⟩

/-- C4, amended: in a tree whose node names are non-empty, free of `.` and pairwise
distinct among siblings, for every chain `c1, ..., ck` (`k >= 1`) of Objects below the
root in which, when `k >= 2`, the last Object `ck` is not named like its parent
`c(k-1)`: `root.subObjectsByDataName()` returns a map that contains the key
`c1.name + "." + ... + "." + ck.name` and maps it to the node `ck`. -/
theorem subObjectsByDataName_addresses_chain (root : Object) (chain : List Object)
    (ck : Object) (hnames : root.wellNamed = true) (hchain : isChain root chain = true)
    (hlast : chain.getLast? = some ck) (hdiff : lastNameDiffers chain = true) :
    ∃ m : YulMap ObjectNode, root.subObjectsByDataName = some m ∧
      m.count (qualifiedName chain) ≠ 0 ∧
      m.at (qualifiedName chain) = some (.object ck) := by
  obtain ⟨m, hm, hat⟩ := at_qualifiedName chain root ck hnames hchain hlast hdiff
  exact ⟨m, hm, (YulMap.count_ne_zero m _).mpr ⟨_, hat⟩, hat⟩

theorem subObjectsByDataName_addresses_chain_witness :
    sameNameRoot.wellNamed = true ∧
      isChain sameNameRoot [sameNameOuter, sameNameInner, sameNameLeaf] = true ∧
      [sameNameOuter, sameNameInner, sameNameLeaf].getLast? = some sameNameLeaf ∧
      lastNameDiffers [sameNameOuter, sameNameInner, sameNameLeaf] = true ∧
      ∃ m : YulMap ObjectNode, sameNameRoot.subObjectsByDataName = some m ∧
        m.count (qualifiedName [sameNameOuter, sameNameInner, sameNameLeaf]) ≠ 0 ∧
        m.at (qualifiedName [sameNameOuter, sameNameInner, sameNameLeaf]) =
          some (.object sameNameLeaf) :=
  ⟨by decide, by decide, by decide, by decide,
    subObjectsByDataName_addresses_chain sameNameRoot
      [sameNameOuter, sameNameInner, sameNameLeaf] sameNameLeaf
      (by decide) (by decide) (by decide) (by decide)⟩

/-! ## The keys of `subObjectsByDataName` -/

theorem YulMap.keys_set {α : Type} (m : YulMap α) (key : YulString) (v : α) :
    ∀ k, k ∈ (YulMap.set m key v).map Prod.fst ↔ k = key ∨ k ∈ m.map Prod.fst := by
  induction m with
  | nil => intro k; simp [YulMap.set]
  | cons q rest ih =>
    obtain ⟨k0, w⟩ := q
    intro k
    by_cases h0 : k0 = key
    · simp only [YulMap.set, h0, if_true, List.map_cons, List.mem_cons]
      tauto
    · simp only [YulMap.set, h0, if_false, List.map_cons, List.mem_cons, ih]
      tauto

theorem YulMap.nodup_keys_set {α : Type} (m : YulMap α) (key : YulString) (v : α)
    (h : (m.map Prod.fst).Nodup) : ((YulMap.set m key v).map Prod.fst).Nodup := by
  induction m with
  | nil => simp [YulMap.set]
  | cons q rest ih =>
    obtain ⟨k0, w⟩ := q
    rw [List.map_cons, List.nodup_cons] at h
    by_cases h0 : k0 = key
    · simp only [YulMap.set, h0, if_true, List.map_cons, List.nodup_cons]
      exact ⟨h0 ▸ h.1, h.2⟩
    · simp only [YulMap.set, h0, if_false, List.map_cons, List.nodup_cons]
      refine ⟨?_, ih h.2⟩
      intro hmem
      rcases (YulMap.keys_set rest key v k0).mp hmem with e | e
      · exact h0 e
      · exact h.1 e

theorem YulMap.at_of_mem {α : Type} (m : YulMap α) (h : (m.map Prod.fst).Nodup)
    (key : YulString) (v : α) (hmem : (key, v) ∈ m) : m.at key = some v := by
  induction m with
  | nil => exact absurd hmem (List.not_mem_nil _)
  | cons q rest ih =>
    obtain ⟨k0, w⟩ := q
    rw [List.map_cons, List.nodup_cons] at h
    rcases List.mem_cons.mp hmem with e | hmem
    · cases e
      simp [YulMap.at]
    · have hne : ¬ k0 = key := by
        intro e
        apply h.1
        rw [e]
        exact List.mem_map.mpr ⟨(key, v), hmem, rfl⟩
      simp only [YulMap.at, hne, if_false]
      exact ih h.2 hmem

theorem subObjectsInner_nodup_keys (sub : Object) (sm : YulMap ObjectNode)
    (names : List YulString) :
    ∀ acc : YulMap ObjectNode, (acc.map Prod.fst).Nodup →
      ((subObjectsInner sub sm names acc).map Prod.fst).Nodup := by
  induction names with
  | nil => intro acc h; exact h
  | cons d t ih =>
    intro acc h
    rw [subObjectsInner, List.foldl_cons]
    apply ih
    rw [subObjectsInnerStep_eq]
    cases subObjectsInnerWrite sub sm d with
    | none => exact h
    | some p => exact YulMap.nodup_keys_set _ _ _ h

theorem subObjectsByDataNameLoop_nodup_keys (subs : List ObjectNode) :
    ∀ acc m : YulMap ObjectNode, (acc.map Prod.fst).Nodup →
      subObjectsByDataNameLoop subs acc = some m → (m.map Prod.fst).Nodup := by
  induction subs with
  | nil =>
    intro acc m h hm
    rw [subObjectsByDataNameLoop] at hm
    cases hm
    exact h
  | cons c rest ih =>
    intro acc m h hm
    cases c with
    | data d =>
      rw [subObjectsByDataNameLoop] at hm
      exact ih acc m h hm
    | object o =>
      obtain ⟨sm, hsm⟩ := o.subObjectsByDataName_total
      rw [subObjectsByDataNameLoop_object o sm hsm] at hm
      exact ih _ m (subObjectsInner_nodup_keys o sm _ acc h) hm

/-- The association list that stands for the map returned by `subObjectsByDataName`
has no key twice. -/
theorem Object.subObjectsByDataName_nodup_keys (o : Object) (m : YulMap ObjectNode)
    (hm : o.subObjectsByDataName = some m) : (m.map Prod.fst).Nodup := by
  rw [Object.subObjectsByDataName_eq] at hm
  exact subObjectsByDataNameLoop_nodup_keys o.subObjects [] m List.nodup_nil hm

theorem subObjectsInnerWrite_cases (sub : Object) (sm : YulMap ObjectNode)
    (d k : YulString) (v : ObjectNode) (h : subObjectsInnerWrite sub sm d = some (k, v)) :
    (d = sub.name ∧ k = sub.name ∧ v = .object sub) ∨
      (d ≠ sub.name ∧ k = sub.name ++ "." ++ d ∧ sm.at d = some v) := by
  unfold subObjectsInnerWrite at h
  by_cases hd : d = sub.name
  · rw [if_pos hd] at h
    simp only [Option.some.injEq, Prod.mk.injEq] at h
    exact Or.inl ⟨hd, h.1.symm, h.2.symm⟩
  · rw [if_neg hd] at h
    cases hat : sm.at d with
    | none => rw [hat] at h; cases h
    | some w =>
      rw [hat] at h
      simp only [Option.some.injEq, Prod.mk.injEq] at h
      exact Or.inr ⟨hd, h.1.symm, by rw [h.2]⟩

/-- A property of entries that holds for every assignment of the two loops of
`subObjectsByDataName` holds for every entry of the map they build. -/
theorem subObjectsByDataNameLoop_invariant (Inv : YulString → ObjectNode → Prop)
    (subs : List ObjectNode)
    (hself : ∀ sub, ObjectNode.object sub ∈ subs → sub.name ∈ sub.dataNames →
      Inv sub.name (.object sub))
    (hqual : ∀ sub sm d v, ObjectNode.object sub ∈ subs →
      sub.subObjectsByDataName = some sm → d ∈ sub.dataNames → d ≠ sub.name →
      sm.at d = some v → Inv (sub.name ++ "." ++ d) v) :
    ∀ acc m : YulMap ObjectNode, (∀ k v, acc.at k = some v → Inv k v) →
      subObjectsByDataNameLoop subs acc = some m → ∀ k v, m.at k = some v → Inv k v := by
  induction subs with
  | nil =>
    intro acc m hacc hm
    rw [subObjectsByDataNameLoop] at hm
    cases hm
    exact hacc
  | cons c rest ih =>
    have hself' : ∀ sub, ObjectNode.object sub ∈ rest → sub.name ∈ sub.dataNames →
        Inv sub.name (.object sub) :=
      fun sub hs => hself sub (List.mem_cons_of_mem _ hs)
    have hqual' : ∀ sub sm d v, ObjectNode.object sub ∈ rest →
        sub.subObjectsByDataName = some sm → d ∈ sub.dataNames → d ≠ sub.name →
        sm.at d = some v → Inv (sub.name ++ "." ++ d) v :=
      fun sub sm d v hs => hqual sub sm d v (List.mem_cons_of_mem _ hs)
    intro acc m hacc hm
    cases c with
    | data d =>
      rw [subObjectsByDataNameLoop] at hm
      exact ih hself' hqual' acc m hacc hm
    | object o =>
      obtain ⟨sm, hsm⟩ := o.subObjectsByDataName_total
      rw [subObjectsByDataNameLoop_object o sm hsm] at hm
      refine ih hself' hqual' _ m ?_ hm
      intro k v hkv
      rcases (at_subObjectsInner o sm _ acc k v).mp hkv with ⟨d, hd, hw⟩ | ⟨-, hacc'⟩
      · rcases subObjectsInnerWrite_cases o sm d k v hw with ⟨e1, e2, e3⟩ | ⟨e1, e2, e3⟩
        · rw [e2, e3]
          exact hself o (List.mem_cons_self _ _) (e1 ▸ hd)
        · rw [e2]
          exact hqual o sm d v (List.mem_cons_self _ _) hsm hd e1 e3
      · exact hacc k v hacc'

theorem Object.subObjectsByDataName_invariant (Inv : YulString → ObjectNode → Prop)
    (o : Object)
    (hself : ∀ sub, ObjectNode.object sub ∈ o.subObjects → sub.name ∈ sub.dataNames →
      Inv sub.name (.object sub))
    (hqual : ∀ sub sm d v, ObjectNode.object sub ∈ o.subObjects →
      sub.subObjectsByDataName = some sm → d ∈ sub.dataNames → d ≠ sub.name →
      sm.at d = some v → Inv (sub.name ++ "." ++ d) v)
    (m : YulMap ObjectNode) (hm : o.subObjectsByDataName = some m)
    (k : YulString) (v : ObjectNode) (hkv : (k, v) ∈ m) : Inv k v := by
  have hat := YulMap.at_of_mem m (o.subObjectsByDataName_nodup_keys m hm) k v hkv
  rw [Object.subObjectsByDataName_eq] at hm
  exact subObjectsByDataNameLoop_invariant Inv o.subObjects hself hqual [] m
    (fun k v h => by simp [YulMap.at] at h) hm k v hat

/-- C16: `subObjectsByDataName()` returns a map every key of which is an element of
`dataNames()` of the same object; in particular no key is the empty identifier. -/
theorem subObjectsByDataName_keys_subset_dataNames (o : Object) :
    ∃ m : YulMap ObjectNode, o.subObjectsByDataName = some m ∧
      (∀ k ∈ m.map Prod.fst, k ∈ o.dataNames ∧ k ≠ "") ∧
      (∀ k, m.count k ≠ 0 → k ∈ o.dataNames) := by
  obtain ⟨m, hm⟩ := o.subObjectsByDataName_total
  have hmem : ∀ k v, (k, v) ∈ m → k ∈ o.dataNames := by
    intro k v hkv
    refine Object.subObjectsByDataName_invariant (fun k _ => k ∈ o.dataNames) o ?_ ?_
      m hm k v hkv
    · intro sub hs hself
      rw [Object.mem_dataNames] at hself ⊢
      exact ⟨hself.1, Or.inr (Or.inl ⟨.object sub, hs, rfl⟩)⟩
    · intro sub sm d v hs _ hd _ _
      rw [Object.mem_dataNames]
      exact ⟨append_dot_ne_empty _ _, Or.inr (Or.inr ⟨sub, hs, d, hd, rfl⟩)⟩
  refine ⟨m, hm, ?_, ?_⟩
  · intro k hk
    obtain ⟨p, hp, rfl⟩ := List.mem_map.mp hk
    have h := hmem p.1 p.2 hp
    refine ⟨h, ?_⟩
    intro e
    rw [e, Object.mem_dataNames] at h
    exact h.1 rfl
  · intro k hk
    obtain ⟨v, hv⟩ := (YulMap.count_ne_zero m k).mp hk
    exact hmem k v (YulMap.mem_of_at m k v hv)

/-- C17: `subObjectsByDataName()` never fails with an out-of-range lookup, it returns a
map on every object; and whenever the map of a child contains a name (the count
check), the recomputed map of that child holds a value for the same name. -/
theorem subObjectsByDataName_never_out_of_range (o : Object) :
    (∃ m : YulMap ObjectNode, o.subObjectsByDataName = some m) ∧
      ∀ (sub : Object) (m : YulMap ObjectNode) (d : YulString),
        ObjectNode.object sub ∈ o.subObjects → sub.subObjectsByDataName = some m →
        m.count d ≠ 0 →
        ∃ (recomputed : YulMap ObjectNode) (v : ObjectNode),
          sub.subObjectsByDataName = some recomputed ∧ recomputed.at d = some v := by
  refine ⟨o.subObjectsByDataName_total, ?_⟩
  intro sub m d _ hm hc
  obtain ⟨v, hv⟩ := (YulMap.count_ne_zero m d).mp hc
  exact ⟨m, v, hm, hv⟩

/-! ## Entries of `subObjectsByDataName` address descendants -/

theorem Object.hasDescendant_eq (o : Object) (node : ObjectNode) :
    o.hasDescendant node = ObjectNode.hasDescendantList o.subObjects node := by
  cases o with
  | mk n c subs i => rw [Object.hasDescendant, Object.subObjects]

theorem ObjectNode.hasDescendantList_of_mem (subs : List ObjectNode) (node : ObjectNode)
    (h : node ∈ subs) : ObjectNode.hasDescendantList subs node = true := by
  induction subs with
  | nil => exact absurd h (List.not_mem_nil _)
  | cons c rest ih =>
    rcases List.mem_cons.mp h with e | h'
    · subst e
      cases node with
      | data d => simp [ObjectNode.hasDescendantList]
      | object o => simp [ObjectNode.hasDescendantList]
    · have hr := ih h'
      cases c with
      | data d => simp [ObjectNode.hasDescendantList, hr]
      | object o => simp [ObjectNode.hasDescendantList, hr]

theorem ObjectNode.hasDescendantList_of_child (subs : List ObjectNode) (sub : Object)
    (node : ObjectNode) (hs : ObjectNode.object sub ∈ subs)
    (h : sub.hasDescendant node = true) :
    ObjectNode.hasDescendantList subs node = true := by
  induction subs with
  | nil => exact absurd hs (List.not_mem_nil _)
  | cons c rest ih =>
    rcases List.mem_cons.mp hs with e | hs'
    · subst e
      simp [ObjectNode.hasDescendantList, h]
    · have hr := ih hs'
      cases c with
      | data d => simp [ObjectNode.hasDescendantList, hr]
      | object o => simp [ObjectNode.hasDescendantList, hr]

theorem Object.subObjectsByDataName_descendants (o : Object) :
    ∀ m, o.subObjectsByDataName = some m → ∀ k v, (k, v) ∈ m →
      o.hasDescendant v = true ∧ (k = v.name ∨ ∃ p : YulString, k = p ++ "." ++ v.name) := by
  induction o using Object.induction_on_children with
  | step o ih =>
    intro m hm k v hkv
    refine Object.subObjectsByDataName_invariant
      (fun k v => o.hasDescendant v = true ∧
        (k = v.name ∨ ∃ p : YulString, k = p ++ "." ++ v.name)) o ?_ ?_ m hm k v hkv
    · intro sub hs _
      refine ⟨?_, Or.inl rfl⟩
      rw [Object.hasDescendant_eq]
      exact ObjectNode.hasDescendantList_of_mem _ _ hs
    · intro sub sm d v hs hsm _ _ hat
      obtain ⟨hdesc, hkey⟩ := ih sub hs sm hsm d v (YulMap.mem_of_at sm d v hat)
      refine ⟨?_, Or.inr ?_⟩
      · rw [Object.hasDescendant_eq]
        exact ObjectNode.hasDescendantList_of_child _ sub v hs hdesc
      · rcases hkey with e | ⟨p, e⟩
        · exact ⟨sub.name, by rw [e]⟩
        · refine ⟨sub.name ++ "." ++ p, ?_⟩
          rw [e]
          simp only [String.append_assoc]

/-- C18: `subObjectsByDataName()` returns a map in which every entry `k -> v` has a
value `v` that is a proper descendant of the object, and a key that ends with the
name of `v`: either `k = v.name` or `k` ends with `"." + v.name`. -/
theorem subObjectsByDataName_entries_descendants (o : Object) :
    ∃ m : YulMap ObjectNode, o.subObjectsByDataName = some m ∧
      ∀ (k : YulString) (v : ObjectNode), (k, v) ∈ m →
        o.hasDescendant v = true ∧
          (k = v.name ∨ ∃ p : YulString, k = p ++ "." ++ v.name) := by
  obtain ⟨m, hm⟩ := o.subObjectsByDataName_total
  exact ⟨m, hm, o.subObjectsByDataName_descendants m hm⟩

/-! ## The doubled name of an Object child -/

/-- C19: for every direct child `c` of `o` that is an Object with a non-empty name,
`o.dataNames()` contains the doubled name `c.name + "." + c.name`, whatever the
children of `c` are. -/
theorem doubled_name_mem_dataNames (o c : Object)
    (hc : ObjectNode.object c ∈ o.subObjects) (hn : c.name ≠ "") :
    c.name ++ "." ++ c.name ∈ o.dataNames := by
  rw [Object.mem_dataNames]
  refine ⟨append_dot_ne_empty _ _, Or.inr (Or.inr ⟨c, hc, c.name, ?_, rfl⟩)⟩
  rw [Object.mem_dataNames]
  exact ⟨hn, Or.inl rfl⟩

theorem doubled_name_mem_dataNames_witness :
    ObjectNode.object exampleA ∈ exampleRoot.subObjects ∧ exampleA.name ≠ "" ∧
      exampleA.name ++ "." ++ exampleA.name ∈ exampleRoot.dataNames :=
  ⟨by decide, by decide,
    doubled_name_mem_dataNames exampleRoot exampleA (by decide) (by decide)⟩

/-! ## Sequences of `addNamedSubObject` calls -/

theorem firstRegistered_append (cs : List (YulString × ObjectNode)) (k : YulString)
    (s : ObjectNode) (n : YulString) :
    firstRegistered (cs ++ [(k, s)]) n =
      match firstRegistered cs n with
      | some x => some x
      | none => if k = n then some s else none := by
  induction cs with
  | nil => simp [firstRegistered]
  | cons c rest ih =>
    obtain ⟨k0, s0⟩ := c
    by_cases h : k0 = n
    · simp [firstRegistered, h]
    · simp only [List.cons_append, firstRegistered, h, if_false]
      exact ih

theorem YulMap.length_set_of_absent {α : Type} (m : YulMap α) (key : YulString) (v : α)
    (h : m.at key = none) : (YulMap.set m key v).length = m.length + 1 := by
  induction m with
  | nil => rfl
  | cons q rest ih =>
    obtain ⟨k0, w⟩ := q
    by_cases h0 : k0 = key
    · simp [YulMap.at, h0] at h
    · simp only [YulMap.at, h0, if_false] at h
      simp only [YulMap.set, h0, if_false, List.length_cons, ih h]

theorem addNamedSubObject_of_count_eq_zero (o : Object) (n : YulString) (s : ObjectNode)
    (h : o.subIndexByName.count n = 0) :
    (o.addNamedSubObject n s).subObjects = o.subObjects ++ [s] ∧
      (o.addNamedSubObject n s).subIndexByName =
        YulMap.set o.subIndexByName n o.subObjects.length := by
  cases o with
  | mk name code subObjects subIndexByName =>
    simp only [Object.subIndexByName] at h
    rw [Object.addNamedSubObject, if_pos h]
    exact ⟨rfl, rfl⟩

theorem Object.addNamedSubObjects_append (o : Object) (cs : List (YulString × ObjectNode))
    (c : YulString × ObjectNode) :
    o.addNamedSubObjects (cs ++ [c]) = (o.addNamedSubObjects cs).addNamedSubObject c.1 c.2 := by
  simp [Object.addNamedSubObjects, List.foldl_append]

theorem addNamedSubObjects_invariant (o0 : Object) (h1 : o0.subObjects = [])
    (h2 : o0.subIndexByName = []) (calls : List (YulString × ObjectNode)) :
    ((o0.addNamedSubObjects calls).subIndexByName.map Prod.fst).Nodup ∧
      (o0.addNamedSubObjects calls).subIndexByName.length =
        (o0.addNamedSubObjects calls).subObjects.length ∧
      (∀ n i, (o0.addNamedSubObjects calls).subIndexByName.at n = some i →
        i < (o0.addNamedSubObjects calls).subObjects.length ∧
          ∃ s, firstRegistered calls n = some s ∧
            (o0.addNamedSubObjects calls).subObjects[i]? = some s) ∧
      (∀ n, (o0.addNamedSubObjects calls).subIndexByName.at n = none →
        firstRegistered calls n = none) := by
  induction calls using List.reverseRecOn with
  | nil =>
    simp [Object.addNamedSubObjects, h1, h2, YulMap.at, firstRegistered]
  | append_singleton cs c ih =>
    obtain ⟨k, s⟩ := c
    obtain ⟨ih1, ih2, ih3, ih4⟩ := ih
    rw [Object.addNamedSubObjects_append]
    generalize o0.addNamedSubObjects cs = o at ih1 ih2 ih3 ih4 ⊢
    by_cases hc : o.subIndexByName.count k = 0
    · obtain ⟨e1, e2⟩ := addNamedSubObject_of_count_eq_zero o k s hc
      have hk : o.subIndexByName.at k = none := (YulMap.count_eq_zero _ _).mp hc
      simp only [e1, e2]
      refine ⟨YulMap.nodup_keys_set _ _ _ ih1, ?_, ?_, ?_⟩
      · rw [YulMap.length_set_of_absent _ _ _ hk, ih2, List.length_append]
        rfl
      · intro n i hat
        rw [YulMap.at_set] at hat
        rw [firstRegistered_append]
        by_cases hn : n = k
        · subst hn
          rw [if_pos rfl] at hat
          cases hat
          rw [ih4 n hk]
          refine ⟨by simp, s, by simp, ?_⟩
          exact List.getElem?_concat_length _ _
        · rw [if_neg hn] at hat
          obtain ⟨hlt, s', hs', hget⟩ := ih3 n i hat
          rw [hs']
          refine ⟨by rw [List.length_append]; omega, s', rfl, ?_⟩
          rw [List.getElem?_append_left hlt]
          exact hget
      · intro n hat
        rw [YulMap.at_set] at hat
        by_cases hn : n = k
        · rw [if_pos hn] at hat
          cases hat
        · rw [if_neg hn] at hat
          rw [firstRegistered_append, ih4 n hat]
          have hn' : ¬ k = n := fun e => hn e.symm
          simp [hn']
    · rw [addNamedSubObject_of_count_ne_zero o k s hc]
      obtain ⟨i0, hi0⟩ := (YulMap.count_ne_zero _ _).mp hc
      refine ⟨ih1, ih2, ?_, ?_⟩
      · intro n i hat
        obtain ⟨hlt, s', hs', hget⟩ := ih3 n i hat
        rw [firstRegistered_append, hs']
        exact ⟨hlt, s', rfl, hget⟩
      · intro n hat
        rw [firstRegistered_append, ih4 n hat]
        have hn' : ¬ k = n := by
          intro e
          rw [e, hat] at hi0
          cases hi0
        simp [hn']

theorem addNamedSubObjects_injective (o0 : Object) (h1 : o0.subObjects = [])
    (h2 : o0.subIndexByName = []) (calls : List (YulString × ObjectNode)) :
    ∀ n n' i, (o0.addNamedSubObjects calls).subIndexByName.at n = some i →
      (o0.addNamedSubObjects calls).subIndexByName.at n' = some i → n = n' := by
  induction calls using List.reverseRecOn with
  | nil =>
    intro n n' i h
    simp [Object.addNamedSubObjects, h2, YulMap.at] at h
  | append_singleton cs c ih =>
    obtain ⟨k, s⟩ := c
    have hlt := (addNamedSubObjects_invariant o0 h1 h2 cs).2.2.1
    rw [Object.addNamedSubObjects_append]
    generalize o0.addNamedSubObjects cs = o at ih hlt ⊢
    by_cases hc : o.subIndexByName.count k = 0
    · obtain ⟨-, e2⟩ := addNamedSubObject_of_count_eq_zero o k s hc
      simp only [e2]
      intro n n' i hn hn'
      rw [YulMap.at_set] at hn hn'
      by_cases e : n = k
      · by_cases e' : n' = k
        · rw [e, e']
        · rw [if_pos e] at hn
          rw [if_neg e'] at hn'
          cases hn
          exact absurd (hlt n' _ hn').1 (Nat.lt_irrefl _)
      · by_cases e' : n' = k
        · rw [if_neg e] at hn
          rw [if_pos e'] at hn'
          cases hn'
          exact absurd (hlt n _ hn).1 (Nat.lt_irrefl _)
        · rw [if_neg e] at hn
          rw [if_neg e'] at hn'
          exact ih n n' i hn hn'
    · rw [addNamedSubObject_of_count_ne_zero o k s hc]
      exact ih

/-- C14: after any finite sequence of `addNamedSubObject` calls on an object that had
no children and an empty `subIndexByName`: the index has exactly as many entries as
there are children (and no name twice), every stored index is smaller than the
number of children, distinct names have distinct indices, the registered names are
exactly the names used by the calls, and the child at the index of a registered name
is the node passed in the first call that used that name. -/
theorem addNamedSubObjects_index_consistent (o0 : Object) (h1 : o0.subObjects = [])
    (h2 : o0.subIndexByName = []) (calls : List (YulString × ObjectNode)) :
    (o0.addNamedSubObjects calls).subIndexByName.length =
        (o0.addNamedSubObjects calls).subObjects.length ∧
      ((o0.addNamedSubObjects calls).subIndexByName.map Prod.fst).Nodup ∧
      (∀ n i, (o0.addNamedSubObjects calls).subIndexByName.at n = some i →
        i < (o0.addNamedSubObjects calls).subObjects.length) ∧
      (∀ n n' i, (o0.addNamedSubObjects calls).subIndexByName.at n = some i →
        (o0.addNamedSubObjects calls).subIndexByName.at n' = some i → n = n') ∧
      (∀ n, (o0.addNamedSubObjects calls).subIndexByName.count n ≠ 0 ↔
        n ∈ calls.map Prod.fst) ∧
      (∀ n i, (o0.addNamedSubObjects calls).subIndexByName.at n = some i →
        ∃ s, firstRegistered calls n = some s ∧
          (o0.addNamedSubObjects calls).subObjects[i]? = some s) := by
  obtain ⟨i1, i2, i3, i4⟩ := addNamedSubObjects_invariant o0 h1 h2 calls
  have hfirst : ∀ (cs : List (YulString × ObjectNode)) (n : YulString),
      firstRegistered cs n = none ↔ n ∉ cs.map Prod.fst := by
    intro cs n
    induction cs with
    | nil => simp [firstRegistered]
    | cons c rest ih =>
      obtain ⟨k, s⟩ := c
      by_cases h : k = n
      · simp [firstRegistered, h]
      · have h' : ¬ n = k := fun e => h e.symm
        simp [firstRegistered, h, h', ih]
  refine ⟨i2, i1, fun n i h => (i3 n i h).1,
    addNamedSubObjects_injective o0 h1 h2 calls, ?_, fun n i h => (i3 n i h).2⟩
  intro n
  rw [YulMap.count_ne_zero]
  constructor
  · rintro ⟨i, hi⟩
    obtain ⟨-, s, hs, -⟩ := i3 n i hi
    by_contra hmem
    rw [(hfirst calls n).mpr hmem] at hs
    cases hs
  · intro hmem
    cases hat : (o0.addNamedSubObjects calls).subIndexByName.at n with
    | some i => exact ⟨i, rfl⟩
    | none => exact absurd hmem ((hfirst calls n).mp (i4 n hat))

theorem addNamedSubObjects_index_consistent_witness :
    emptyObject.subObjects = [] ∧ emptyObject.subIndexByName = [] ∧
      (emptyObject.addNamedSubObjects exampleCalls).subIndexByName.length =
        (emptyObject.addNamedSubObjects exampleCalls).subObjects.length ∧
      ∃ s, firstRegistered exampleCalls "a" = some s ∧
        (emptyObject.addNamedSubObjects exampleCalls).subObjects[0]? = some s :=
  ⟨rfl, rfl,
    (addNamedSubObjects_index_consistent emptyObject rfl rfl exampleCalls).1,
    (addNamedSubObjects_index_consistent emptyObject rfl rfl exampleCalls).2.2.2.2.2
      "a" 0 (by decide)⟩

/-! ## The recursions descend to direct children only -/

theorem dataNamesLoop_eq_foldl (subs : List ObjectNode) :
    ∀ names : List YulString,
      dataNamesLoop subs names =
        subs.foldl (fun names subObjectNode =>
          match subObjectNode with
          | .data d => setInsert d.name names
          | .object subObject =>
            (subObject.dataNames).foldl
              (fun acc subSubObj => setInsert (subObject.name ++ "." ++ subSubObj) acc)
              (setInsert subObject.name names)) names := by
  induction subs with
  | nil => intro names; rw [dataNamesLoop]; rfl
  | cons c rest ih =>
    intro names
    cases c with
    | data d => rw [dataNamesLoop, ih]; rfl
    | object o => rw [dataNamesLoop, ih]; rfl

theorem Object.dataNames_eq_body (o : Object) :
    o.dataNames = dataNamesBody Object.dataNames o := by
  cases o with
  | mk n c subs i =>
    rw [Object.dataNames, dataNamesLoop_eq_foldl]
    rfl

theorem foldl_congr_mem {α β : Type} (f g : β → α → β) (l : List α)
    (h : ∀ a ∈ l, ∀ b, f b a = g b a) : ∀ b, l.foldl f b = l.foldl g b := by
  induction l with
  | nil => intro b; rfl
  | cons a t ih =>
    intro b
    rw [List.foldl_cons, List.foldl_cons, h a (List.mem_cons_self _ _) b]
    exact ih (fun x hx => h x (List.mem_cons_of_mem _ hx)) _

theorem foldlM_congr_mem {α β : Type} (f g : β → α → Option β) (l : List α)
    (h : ∀ a ∈ l, ∀ b, f b a = g b a) : ∀ b, l.foldlM f b = l.foldlM g b := by
  induction l with
  | nil => intro b; rfl
  | cons a t ih =>
    intro b
    rw [List.foldlM_cons, List.foldlM_cons, h a (List.mem_cons_self _ _) b]
    have := ih (fun x hx => h x (List.mem_cons_of_mem _ hx))
    simp only [this]

theorem dataNamesBody_local (o : Object) (f g : Object → List YulString)
    (h : ∀ sub, ObjectNode.object sub ∈ o.subObjects → f sub = g sub) :
    dataNamesBody f o = dataNamesBody g o := by
  unfold dataNamesBody
  congr 1
  apply foldl_congr_mem
  intro a ha b
  cases a with
  | data d => rfl
  | object sub => simp only [h sub ha]

theorem subObjectsByDataNameLoop_eq_foldlM (subs : List ObjectNode) :
    ∀ acc : YulMap ObjectNode,
      subObjectsByDataNameLoop subs acc =
        subs.foldlM (fun objectsByDataName subObjectNode =>
          match subObjectNode with
          | .data _ => some objectsByDataName
          | .object subObject =>
            (subObject.dataNames).foldlM (fun acc subObjDataName =>
              if subObjDataName = subObject.name then
                some (YulMap.set acc subObject.name (.object subObject))
              else
                match subObject.subObjectsByDataName with
                | none => none
                | some subSubObjects =>
                  if subSubObjects.count subObjDataName ≠ 0 then
                    match subObject.subObjectsByDataName with
                    | none => none
                    | some recomputed =>
                      match recomputed.at subObjDataName with
                      | none => none
                      | some target =>
                        some (YulMap.set acc (subObject.name ++ "." ++ subObjDataName)
                          target)
                  else some acc) objectsByDataName) acc := by
  induction subs with
  | nil => intro acc; rw [subObjectsByDataNameLoop]; rfl
  | cons c rest ih =>
    intro acc
    cases c with
    | data d =>
      rw [subObjectsByDataNameLoop, ih, List.foldlM_cons]
      rfl
    | object o =>
      rw [subObjectsByDataNameLoop, List.foldlM_cons]
      simp only [ih]
      split
      · rename_i h
        rw [h]; rfl
      · rename_i m h
        rw [h]; rfl

theorem Object.subObjectsByDataName_eq_body (o : Object) :
    o.subObjectsByDataName =
      subObjectsByDataNameBody Object.dataNames Object.subObjectsByDataName o := by
  rw [Object.subObjectsByDataName_eq, subObjectsByDataNameLoop_eq_foldlM]
  rfl

theorem subObjectsByDataNameBody_local (o : Object) (names names' : Object → List YulString)
    (f g : Object → Option (YulMap ObjectNode))
    (h : ∀ sub, ObjectNode.object sub ∈ o.subObjects →
      names sub = names' sub ∧ f sub = g sub) :
    subObjectsByDataNameBody names f o = subObjectsByDataNameBody names' g o := by
  unfold subObjectsByDataNameBody
  apply foldlM_congr_mem
  intro a ha b
  cases a with
  | data d => rfl
  | object sub => simp only [(h sub ha).1, (h sub ha).2]

theorem ObjectNode.nodeCountList_mem (subs : List ObjectNode) (sub : Object)
    (h : ObjectNode.object sub ∈ subs) : sub.nodeCount ≤ ObjectNode.nodeCountList subs := by
  induction subs with
  | nil => exact absurd h (List.not_mem_nil _)
  | cons c rest ih =>
    rcases List.mem_cons.mp h with e | h'
    · subst e
      rw [ObjectNode.nodeCountList]
      omega
    · have hr := ih h'
      cases c with
      | data d => rw [ObjectNode.nodeCountList]; omega
      | object o => rw [ObjectNode.nodeCountList]; omega

theorem Object.nodeCount_child (o sub : Object) (h : ObjectNode.object sub ∈ o.subObjects) :
    sub.nodeCount < o.nodeCount := by
  cases o with
  | mk n c subs i =>
    have := ObjectNode.nodeCountList_mem subs sub h
    rw [Object.nodeCount]
    omega

/-- C13: `dataNames` and `subObjectsByDataName` are total functions on object trees:
each is the fixed point of its body, the body consults its recursive calls on direct
children only, every direct child has strictly fewer nodes than its parent, and both
return a result on every object. -/
theorem dataNames_subObjectsByDataName_terminate (o : Object) :
    o.dataNames = dataNamesBody Object.dataNames o ∧
      (∀ f g : Object → List YulString,
        (∀ sub, ObjectNode.object sub ∈ o.subObjects → f sub = g sub) →
        dataNamesBody f o = dataNamesBody g o) ∧
      o.subObjectsByDataName =
        subObjectsByDataNameBody Object.dataNames Object.subObjectsByDataName o ∧
      (∀ (names names' : Object → List YulString)
          (f g : Object → Option (YulMap ObjectNode)),
        (∀ sub, ObjectNode.object sub ∈ o.subObjects →
          names sub = names' sub ∧ f sub = g sub) →
        subObjectsByDataNameBody names f o = subObjectsByDataNameBody names' g o) ∧
      (∀ sub, ObjectNode.object sub ∈ o.subObjects → sub.nodeCount < o.nodeCount) ∧
      (∃ names : List YulString, o.dataNames = names) ∧
      ∃ m : YulMap ObjectNode, o.subObjectsByDataName = some m :=
  ⟨o.dataNames_eq_body, dataNamesBody_local o, o.subObjectsByDataName_eq_body,
    subObjectsByDataNameBody_local o, fun sub h => o.nodeCount_child sub h,
    ⟨_, rfl⟩, o.subObjectsByDataName_total⟩

/-! ## `Data::toString` -/

theorem length_toHex (data : List (Fin 256)) : (toHex data).length = 2 * data.length := by
  induction data with
  | nil => rfl
  | cons b rest ih =>
    rw [toHex, String.length_append, ih, List.length_cons]
    have : (String.mk [hexDigit (b.val / 16), hexDigit (b.val % 16)]).length = 2 := rfl
    omega

theorem data_toHex (data : List (Fin 256)) :
    (toHex data).data =
      data.flatMap (fun b => [hexDigit (b.val / 16), hexDigit (b.val % 16)]) := by
  induction data with
  | nil => rfl
  | cons b rest ih =>
    rw [toHex, String.data_append, ih, List.flatMap_cons]

/-- C11: for every Data node and every dialect argument, `toString` is the
concatenation `data "` + name + `" hex"` + H + `"`, where H holds two hexadecimal
digits per byte of the payload, in payload order and without prefix; the rendered
length is `len(name) + 2 * len(data) + 13`, and the result is the same for every
dialect argument. -/
theorem data_toString (d : Data) (dialect : Option Dialect) :
    d.toString dialect = "data \"" ++ d.name ++ "\" hex\"" ++ toHex d.data ++ "\"" ∧
      (toHex d.data).data =
        d.data.flatMap (fun b => [hexDigit (b.val / 16), hexDigit (b.val % 16)]) ∧
      (toHex d.data).length = 2 * d.data.length ∧
      (d.toString dialect).length = d.name.length + 2 * d.data.length + 13 ∧
      ∀ other : Option Dialect, d.toString other = d.toString dialect := by
  refine ⟨rfl, data_toHex d.data, length_toHex d.data, ?_, fun _ => rfl⟩
  rw [Data.toString]
  simp only [String.length_append, length_toHex]
  have h1 : "data \"".length = 6 := by decide
  have h2 : "\" hex\"".length = 6 := by decide
  have h3 : "\"".length = 1 := by decide
  omega

/-! ## When `Object::toString` fails -/

theorem Object.allHaveCode_eq (o : Object) :
    o.allHaveCode = (o.code.isSome && ObjectNode.allHaveCodeList o.subObjects) := by
  cases o with
  | mk n c subs i => rw [Object.allHaveCode, Object.code, Object.subObjects]

theorem Object.toString_eq (asmPrinter : Option Dialect → Block → String)
    (dialect : Option Dialect) (o : Object) :
    o.toString asmPrinter dialect =
      match o.code with
      | none => .error "No code"
      | some c =>
        match ObjectNode.toStringLoop asmPrinter dialect o.subObjects
            ("code " ++ asmPrinter dialect c) with
        | .error e => .error e
        | .ok inner => .ok ("object \"" ++ o.name ++ "\" \x7b\n" ++ indent inner ++ "\n\x7d") := by
  cases o with
  | mk n c subs i =>
    cases c with
    | none => simp only [Object.toString, Object.code]
    | some b => simp only [Object.toString, Object.code, Object.subObjects, Object.name]

theorem ObjectNode.allHaveCodeList_false (subs : List ObjectNode) :
    ObjectNode.allHaveCodeList subs = false ↔
      ∃ sub, ObjectNode.object sub ∈ subs ∧ sub.allHaveCode = false := by
  induction subs with
  | nil => simp [ObjectNode.allHaveCodeList]
  | cons c rest ih =>
    cases c with
    | data d =>
      rw [ObjectNode.allHaveCodeList, ih]
      constructor
      · rintro ⟨sub, hs, h⟩
        exact ⟨sub, List.mem_cons_of_mem _ hs, h⟩
      · rintro ⟨sub, hs, h⟩
        rcases List.mem_cons.mp hs with e | hs'
        · cases e
        · exact ⟨sub, hs', h⟩
    | object o =>
      rw [ObjectNode.allHaveCodeList, Bool.and_eq_false_iff, ih]
      constructor
      · rintro (h | ⟨sub, hs, h⟩)
        · exact ⟨o, List.mem_cons_self _ _, h⟩
        · exact ⟨sub, List.mem_cons_of_mem _ hs, h⟩
      · rintro ⟨sub, hs, h⟩
        rcases List.mem_cons.mp hs with e | hs'
        · cases e
          exact Or.inl h
        · exact Or.inr ⟨sub, hs', h⟩

theorem ObjectNode.toStringLoop_result (asmPrinter : Option Dialect → Block → String)
    (dialect : Option Dialect) (subs : List ObjectNode)
    (h : ∀ sub, ObjectNode.object sub ∈ subs →
      (sub.allHaveCode = true → ∃ s, sub.toString asmPrinter dialect = .ok s) ∧
        (sub.allHaveCode = false → sub.toString asmPrinter dialect = .error "No code")) :
    (ObjectNode.allHaveCodeList subs = true →
        ∀ inner, ∃ s, ObjectNode.toStringLoop asmPrinter dialect subs inner = .ok s) ∧
      (ObjectNode.allHaveCodeList subs = false →
        ∀ inner, ObjectNode.toStringLoop asmPrinter dialect subs inner =
          .error "No code") := by
  induction subs with
  | nil =>
    refine ⟨fun _ inner => ⟨inner, by rw [ObjectNode.toStringLoop]⟩, fun hf => ?_⟩
    simp [ObjectNode.allHaveCodeList] at hf
  | cons c rest ih =>
    have ih' := ih (fun sub hs => h sub (List.mem_cons_of_mem _ hs))
    cases c with
    | data d =>
      constructor
      · intro ht inner
        rw [ObjectNode.allHaveCodeList] at ht
        rw [ObjectNode.toStringLoop]
        exact ih'.1 ht _
      · intro hf inner
        rw [ObjectNode.allHaveCodeList] at hf
        rw [ObjectNode.toStringLoop]
        exact ih'.2 hf _
    | object o =>
      have ho := h o (List.mem_cons_self _ _)
      constructor
      · intro ht inner
        rw [ObjectNode.allHaveCodeList, Bool.and_eq_true] at ht
        obtain ⟨s, hs⟩ := ho.1 ht.1
        rw [ObjectNode.toStringLoop, hs]
        exact ih'.1 ht.2 _
      · intro hf inner
        rw [ObjectNode.allHaveCodeList] at hf
        rw [ObjectNode.toStringLoop]
        cases hoc : o.allHaveCode with
        | false => rw [ho.2 hoc]
        | true =>
          obtain ⟨s, hs⟩ := ho.1 hoc
          rw [hs]
          rw [hoc, Bool.true_and] at hf
          exact ih'.2 hf _

theorem Object.toString_result (asmPrinter : Option Dialect → Block → String)
    (dialect : Option Dialect) (o : Object) :
    (o.allHaveCode = true → ∃ s, o.toString asmPrinter dialect = .ok s) ∧
      (o.allHaveCode = false → o.toString asmPrinter dialect = .error "No code") := by
  induction o using Object.induction_on_children with
  | step o ih =>
    have hloop := ObjectNode.toStringLoop_result asmPrinter dialect o.subObjects ih
    rw [Object.toString_eq, Object.allHaveCode_eq]
    cases hc : o.code with
    | none => simp
    | some c =>
      simp only [Option.isSome_some, Bool.true_and]
      constructor
      · intro ht
        obtain ⟨s, hs⟩ := hloop.1 ht ("code " ++ asmPrinter dialect c)
        rw [hs]
        exact ⟨_, rfl⟩
      · intro hf
        rw [hloop.2 hf]

theorem ObjectNode.hasDescendantList_iff (subs : List ObjectNode) (node : ObjectNode) :
    ObjectNode.hasDescendantList subs node = true ↔
      node ∈ subs ∨ ∃ sub, ObjectNode.object sub ∈ subs ∧ sub.hasDescendant node = true := by
  constructor
  · intro h
    induction subs with
    | nil => simp [ObjectNode.hasDescendantList] at h
    | cons c rest ih =>
      cases c with
      | data d =>
        simp only [ObjectNode.hasDescendantList, Bool.or_eq_true, decide_eq_true_eq] at h
        rcases h with h | h
        · exact Or.inl (h ▸ List.mem_cons_self _ _)
        · rcases ih h with h' | ⟨sub, hs, h'⟩
          · exact Or.inl (List.mem_cons_of_mem _ h')
          · exact Or.inr ⟨sub, List.mem_cons_of_mem _ hs, h'⟩
      | object o =>
        simp only [ObjectNode.hasDescendantList, Bool.or_eq_true, decide_eq_true_eq] at h
        rcases h with (h | h) | h
        · exact Or.inl (h ▸ List.mem_cons_self _ _)
        · exact Or.inr ⟨o, List.mem_cons_self _ _, h⟩
        · rcases ih h with h' | ⟨sub, hs, h'⟩
          · exact Or.inl (List.mem_cons_of_mem _ h')
          · exact Or.inr ⟨sub, List.mem_cons_of_mem _ hs, h'⟩
  · rintro (h | ⟨sub, hs, h⟩)
    · exact ObjectNode.hasDescendantList_of_mem subs node h
    · exact ObjectNode.hasDescendantList_of_child subs sub node hs h

theorem Object.allHaveCode_false_iff (o : Object) :
    o.allHaveCode = false ↔
      ∃ obj : Object, (obj = o ∨ o.hasDescendant (.object obj) = true) ∧ obj.code = none := by
  induction o using Object.induction_on_children with
  | step o ih =>
    rw [Object.allHaveCode_eq, Bool.and_eq_false_iff, ObjectNode.allHaveCodeList_false]
    constructor
    · rintro (h | ⟨sub, hs, h⟩)
      · refine ⟨o, Or.inl rfl, ?_⟩
        cases hc : o.code with
        | none => rfl
        | some c => rw [hc] at h; cases h
      · obtain ⟨obj, hobj, hcode⟩ := (ih sub hs).mp h
        refine ⟨obj, Or.inr ?_, hcode⟩
        rw [Object.hasDescendant_eq, ObjectNode.hasDescendantList_iff]
        rcases hobj with e | hd
        · exact Or.inl (e ▸ hs)
        · exact Or.inr ⟨sub, hs, hd⟩
    · rintro ⟨obj, hobj | hobj, hcode⟩
      · left
        rw [← hobj, hcode]
        rfl
      · right
        rw [Object.hasDescendant_eq, ObjectNode.hasDescendantList_iff] at hobj
        rcases hobj with hmem | ⟨sub, hs, hd⟩
        · refine ⟨obj, hmem, ?_⟩
          rw [Object.allHaveCode_eq, hcode]
          rfl
        · exact ⟨sub, hs, (ih sub hs).mpr ⟨obj, Or.inr hd, hcode⟩⟩

/-- C15: `o.toString` fails with the assertion `No code` if and only if `o` itself or
an Object reachable from `o` through child sequences has no code block; when every
such Object has a code block it returns a string; it fails in no other way, and the
rendering of a Data node always returns a string. -/
theorem toString_fails_iff_no_code (asmPrinter : Option Dialect → Block → String)
    (dialect : Option Dialect) (o : Object) :
    (o.toString asmPrinter dialect = .error "No code" ↔
        ∃ obj : Object, (obj = o ∨ o.hasDescendant (.object obj) = true) ∧
          obj.code = none) ∧
      ((∀ obj : Object, (obj = o ∨ o.hasDescendant (.object obj) = true) →
          obj.code ≠ none) →
        ∃ s, o.toString asmPrinter dialect = .ok s) ∧
      (∀ e, o.toString asmPrinter dialect = .error e → e = "No code") ∧
      ∀ d : Data, ObjectNode.toString asmPrinter dialect (.data d) =
        .ok (d.toString dialect) := by
  have hres := o.toString_result asmPrinter dialect
  have hiff := o.allHaveCode_false_iff
  refine ⟨?_, ?_, ?_, fun d => rfl⟩
  · rw [← hiff]
    constructor
    · intro herr
      cases hc : o.allHaveCode with
      | false => rfl
      | true =>
        obtain ⟨s, hs⟩ := hres.1 hc
        rw [hs] at herr
        cases herr
    · exact hres.2
  · intro hall
    apply hres.1
    cases hc : o.allHaveCode with
    | true => rfl
    | false =>
      obtain ⟨obj, hobj, hcode⟩ := hiff.mp hc
      exact absurd hcode (hall obj hobj)
  · intro e herr
    cases hc : o.allHaveCode with
    | false =>
      rw [hres.2 hc] at herr
      cases herr
      rfl
    | true =>
      obtain ⟨s, hs⟩ := hres.1 hc
      rw [hs] at herr
      cases herr

/-! ## Lines and indentation -/

theorem splitLines_cons_ne (c : Char) (cs : List Char) (h : c ≠ '\n') :
    ∃ l ls, splitLines cs = l :: ls ∧ splitLines (c :: cs) = (c :: l) :: ls := by
  cases hs : splitLines cs with
  | nil =>
    exfalso
    cases cs with
    | nil => simp [splitLines] at hs
    | cons d ds =>
      rw [splitLines] at hs
      split at hs
      · cases hs
      · split at hs <;> cases hs
  | cons l ls =>
    refine ⟨l, ls, rfl, ?_⟩
    rw [splitLines, if_neg h, hs]

theorem splitLines_append_newline (a b : List Char) :
    splitLines (a ++ '\n' :: b) = splitLines a ++ splitLines b := by
  induction a with
  | nil => simp [splitLines]
  | cons c t ih =>
    by_cases hc : c = '\n'
    · subst hc
      rw [List.cons_append, splitLines, if_pos rfl, ih, splitLines, if_pos rfl]
      rfl
    · obtain ⟨l, ls, h1, h2⟩ := splitLines_cons_ne c t hc
      rw [h2, List.cons_append]
      obtain ⟨l', ls', h1', h2'⟩ := splitLines_cons_ne c (t ++ '\n' :: b) hc
      rw [h2']
      rw [ih, h1] at h1'
      simp only [List.cons_append, List.cons.injEq] at h1'
      rw [← h1'.1, ← h1'.2]
      rfl

theorem splitLines_no_newline (l : List Char) (h : '\n' ∉ l) : splitLines l = [l] := by
  induction l with
  | nil => rfl
  | cons c t ih =>
    have hc : c ≠ '\n' := fun e => h (e ▸ List.mem_cons_self _ _)
    have ht := ih (fun hm => h (List.mem_cons_of_mem _ hm))
    rw [splitLines, if_neg hc, ht]

theorem splitLines_append_no_newline (p x : List Char) (h : '\n' ∉ p) :
    ∃ l ls, splitLines x = l :: ls ∧ splitLines (p ++ x) = (p ++ l) :: ls := by
  induction p with
  | nil =>
    cases hs : splitLines x with
    | nil =>
      exfalso
      cases x with
      | nil => simp [splitLines] at hs
      | cons d ds =>
        rw [splitLines] at hs
        split at hs
        · cases hs
        · split at hs <;> cases hs
    | cons l ls => exact ⟨l, ls, rfl, by simpa using hs⟩
  | cons c t ih =>
    have hc : c ≠ '\n' := fun e => h (e ▸ List.mem_cons_self _ _)
    obtain ⟨l, ls, h1, h2⟩ := ih (fun hm => h (List.mem_cons_of_mem _ hm))
    refine ⟨l, ls, h1, ?_⟩
    rw [List.cons_append, splitLines, if_neg hc, h2]
    rfl

theorem splitLines_replaceNewlines (x : List Char) :
    ∃ l ls, splitLines x = l :: ls ∧
      splitLines (replaceNewlines x) = l :: ls.map (fun r => [' ', ' ', ' ', ' '] ++ r) := by
  induction x with
  | nil => exact ⟨[], [], rfl, rfl⟩
  | cons c t ih =>
    obtain ⟨l, ls, h1, h2⟩ := ih
    by_cases hc : c = '\n'
    · subst hc
      refine ⟨[], l :: ls, by rw [splitLines, if_pos rfl, h1], ?_⟩
      rw [replaceNewlines, if_pos rfl, splitLines, if_pos rfl]
      obtain ⟨l', ls', h1', h2'⟩ := splitLines_append_no_newline [' ', ' ', ' ', ' ']
        (replaceNewlines t) (by decide)
      rw [h2] at h1'
      simp only [List.cons.injEq] at h1'
      have e : ' ' :: ' ' :: ' ' :: ' ' :: replaceNewlines t =
          [' ', ' ', ' ', ' '] ++ replaceNewlines t := rfl
      rw [e, h2', ← h1'.1, ← h1'.2]
      rfl
    · refine ⟨c :: l, ls, by rw [splitLines, if_neg hc, h1], ?_⟩
      rw [replaceNewlines, if_neg hc, splitLines, if_neg hc, h2]

theorem replaceNewlines_four_spaces (x : List Char) :
    replaceNewlines ([' ', ' ', ' ', ' '] ++ x) = [' ', ' ', ' ', ' '] ++ replaceNewlines x := by
  simp [replaceNewlines]

theorem splitLines_indent (x : List Char) :
    splitLines (replaceNewlines ([' ', ' ', ' ', ' '] ++ x)) =
      (splitLines x).map (fun r => [' ', ' ', ' ', ' '] ++ r) := by
  rw [replaceNewlines_four_spaces]
  obtain ⟨l, ls, h1, h2⟩ := splitLines_replaceNewlines x
  obtain ⟨l', ls', h1', h2'⟩ := splitLines_append_no_newline [' ', ' ', ' ', ' ']
    (replaceNewlines x) (by decide)
  rw [h2] at h1'
  simp only [List.cons.injEq] at h1'
  rw [h2', h1, ← h1'.1, ← h1'.2]
  rfl

theorem lines_indent (s : String) (h : s ≠ "") :
    lines (indent s) = (lines s).map (fun l => "    " ++ l) := by
  unfold indent lines
  rw [if_neg h]
  have e : ("    " ++ s).data = [' ', ' ', ' ', ' '] ++ s.data := by
    rw [String.data_append]
  rw [e]
  show List.map String.mk (splitLines (replaceNewlines ([' ', ' ', ' ', ' '] ++ s.data))) = _
  rw [splitLines_indent, List.map_map, List.map_map]
  apply List.map_congr_left
  intro r _
  rfl

theorem lines_append_newline (a b : String) : lines (a ++ ("\n" ++ b)) = lines a ++ lines b := by
  unfold lines
  have e : (a ++ ("\n" ++ b)).data = a.data ++ '\n' :: b.data := by
    rw [String.data_append, String.data_append]
    try rfl
  rw [e, splitLines_append_newline, List.map_append]

theorem lines_no_newline (s : String) (h : '\n' ∉ s.data) : lines s = [s] := by
  unfold lines
  rw [splitLines_no_newline s.data h]
  rfl

theorem lines_concatAll (strs : List String) :
    ∀ inner : String,
      lines (inner ++ concatAll (strs.map (fun s => "\n" ++ s))) =
        lines inner ++ strs.flatMap lines := by
  induction strs with
  | nil =>
    intro inner
    simp [concatAll]
  | cons s t ih =>
    intro inner
    rw [List.map_cons, concatAll, ← String.append_assoc, ih, lines_append_newline,
      List.flatMap_cons, List.append_assoc]

/-! ## The shape of `Object::toString` -/

theorem ObjectNode.toStringLoop_ok (asmPrinter : Option Dialect → Block → String)
    (dialect : Option Dialect) (subs : List ObjectNode) :
    ∀ (inner r : String), ObjectNode.toStringLoop asmPrinter dialect subs inner = .ok r →
      ∃ strs : List String,
        List.Forall₂ (fun child s => child.toString asmPrinter dialect = .ok s) subs strs ∧
          r = inner ++ concatAll (strs.map (fun s => "\n" ++ s)) := by
  induction subs with
  | nil =>
    intro inner r h
    rw [ObjectNode.toStringLoop] at h
    cases h
    exact ⟨[], List.Forall₂.nil, by simp [concatAll]⟩
  | cons c rest ih =>
    intro inner r h
    cases c with
    | data d =>
      rw [ObjectNode.toStringLoop] at h
      obtain ⟨strs, hf, hr⟩ := ih _ r h
      refine ⟨d.toString dialect :: strs, List.Forall₂.cons rfl hf, ?_⟩
      rw [hr, List.map_cons, concatAll, String.append_assoc]
    | object o =>
      rw [ObjectNode.toStringLoop] at h
      cases ho : o.toString asmPrinter dialect with
      | error e => rw [ho] at h; cases h
      | ok s =>
        rw [ho] at h
        obtain ⟨strs, hf, hr⟩ := ih _ r h
        refine ⟨s :: strs, List.Forall₂.cons ho hf, ?_⟩
        rw [hr, List.map_cons, concatAll, String.append_assoc]

theorem toString_frame_eq (name body : String) :
    "object \"" ++ name ++ "\" \x7b\n" ++ body ++ "\n\x7d" =
      ("object \"" ++ name ++ "\" \x7b") ++ ("\n" ++ (body ++ ("\n" ++ "\x7d"))) := by
  apply String.ext
  simp only [String.data_append]
  simp

theorem code_append_ne_empty (a b : String) : "code " ++ a ++ b ≠ "" := by
  intro h
  have h1 := congrArg String.length h
  simp only [String.length_append] at h1
  have h2 : "code ".length = 5 := by decide
  have h3 : "".length = 0 := by decide
  omega

theorem Object.toString_ok_form (asmPrinter : Option Dialect → Block → String)
    (dialect : Option Dialect) (o : Object) (r : String)
    (h : o.toString asmPrinter dialect = .ok r) :
    ∃ (c : Block) (strs : List String), o.code = some c ∧
      List.Forall₂ (fun child s => child.toString asmPrinter dialect = .ok s)
        o.subObjects strs ∧
      r = "object \"" ++ o.name ++ "\" \x7b\n" ++
        indent ("code " ++ asmPrinter dialect c ++ concatAll (strs.map (fun s => "\n" ++ s))) ++
        "\n\x7d" ∧
      lines r = lines ("object \"" ++ o.name ++ "\" \x7b") ++
        ((lines ("code " ++ asmPrinter dialect c) ++ strs.flatMap lines).map
          (fun l => "    " ++ l) ++ ["\x7d"]) := by
  rw [Object.toString_eq] at h
  cases hc : o.code with
  | none => rw [hc] at h; cases h
  | some c =>
    rw [hc] at h
    simp only at h
    cases hl : ObjectNode.toStringLoop asmPrinter dialect o.subObjects
        ("code " ++ asmPrinter dialect c) with
    | error e => rw [hl] at h; cases h
    | ok inner =>
      rw [hl] at h
      simp only [Except.ok.injEq] at h
      obtain ⟨strs, hf, hr⟩ := ObjectNode.toStringLoop_ok asmPrinter dialect _ _ _ hl
      subst hr
      refine ⟨c, strs, rfl, hf, h.symm, ?_⟩
      rw [← h, toString_frame_eq, lines_append_newline, lines_append_newline,
        lines_indent _ (code_append_ne_empty _ _), lines_concatAll]
      rfl

theorem forall₂_mem_left {α β : Type} (R : α → β → Prop) (l : List α) (l' : List β)
    (h : List.Forall₂ R l l') (a : α) (ha : a ∈ l) : ∃ b ∈ l', R a b := by
  induction h with
  | nil => exact absurd ha (List.not_mem_nil _)
  | cons hab _ ih =>
    rcases List.mem_cons.mp ha with e | ha'
    · subst e
      exact ⟨_, List.mem_cons_self _ _, hab⟩
    · obtain ⟨b, hb, hr⟩ := ih ha'
      exact ⟨b, List.mem_cons_of_mem _ hb, hr⟩

theorem Object.lines_child (asmPrinter : Option Dialect → Block → String)
    (dialect : Option Dialect) (o : Object) (r : String)
    (h : o.toString asmPrinter dialect = .ok r) (node : ObjectNode)
    (hn : node ∈ o.subObjects) (s : String) (hs : node.toString asmPrinter dialect = .ok s)
    (l : String) (hl : l ∈ lines s) : "    " ++ l ∈ lines r := by
  obtain ⟨c, strs, -, hf, -, hlines⟩ := o.toString_ok_form asmPrinter dialect r h
  obtain ⟨s', hs', hr⟩ := forall₂_mem_left _ _ _ hf node hn
  rw [hs] at hr
  cases hr
  rw [hlines]
  apply List.mem_append_right
  apply List.mem_append_left
  apply List.mem_map.mpr
  refine ⟨l, List.mem_append_right _ ?_, rfl⟩
  exact List.mem_flatMap.mpr ⟨s, hs', hl⟩

theorem indentation_append (n : Nat) (l : String) :
    "    " ++ (String.mk (List.replicate n ' ') ++ l) =
      String.mk (List.replicate (n + 4) ' ') ++ l := by
  apply String.ext
  simp only [String.data_append]
  rfl

theorem Object.lines_nested (asmPrinter : Option Dialect → Block → String)
    (dialect : Option Dialect) :
    ∀ (path : List Object) (o : Object) (r : String),
      o.toString asmPrinter dialect = .ok r → isChain o path = true →
      ∀ (node : ObjectNode) (s : String), node ∈ (path.getLast?.getD o).subObjects →
        node.toString asmPrinter dialect = .ok s →
        ∀ l ∈ lines s,
          String.mk (List.replicate (4 * (path.length + 1)) ' ') ++ l ∈ lines r := by
  intro path
  induction path with
  | nil =>
    intro o r h _ node s hn hs l hl
    have := o.lines_child asmPrinter dialect r h node hn s hs l hl
    simpa using this
  | cons c1 cs ih =>
    intro o r h hch node s hn hs l hl
    obtain ⟨hc1, hcs⟩ := isChain_cons o c1 cs hch
    obtain ⟨c, strs, -, hf, -, -⟩ := o.toString_ok_form asmPrinter dialect r h
    obtain ⟨s1, -, hs1⟩ := forall₂_mem_left _ _ _ hf (.object c1) hc1
    have hs1' : c1.toString asmPrinter dialect = .ok s1 := hs1
    have hn' : node ∈ (cs.getLast?.getD c1).subObjects := by
      cases cs with
      | nil => simpa using hn
      | cons c2 cs' =>
        rw [List.getLast?_cons_cons] at hn
        simpa using hn
    have h1 := ih c1 s1 hs1' hcs node s hn' hs l hl
    have h2 := o.lines_child asmPrinter dialect r h (.object c1) hc1 s1 hs1 _ h1
    rw [indentation_append] at h2
    have e : 4 * (cs.length + 1) + 4 = 4 * ((c1 :: cs).length + 1) := by
      rw [List.length_cons]; omega
    rw [e] at h2
    exact h2

/-- C12: for an Object all of whose Objects (itself included) have a code block,
`toString` returns `object "` + name + `" {\n` + indent(I) + `\n}`, where I is
`code ` + the printed code followed, for each child in insertion order, by a newline
and that child's own `toString`; `indent` puts four spaces before every line of I;
when the name holds no newline the lines of the output are the header line, the
lines of I each behind four spaces, and the line `}`; and every line of the rendering
of a node nested `d` levels below the object is a line of the output behind `4 * d`
spaces. -/
theorem object_toString_shape (asmPrinter : Option Dialect → Block → String)
    (dialect : Option Dialect) (o : Object) (hcode : o.allHaveCode = true) :
    ∃ (c : Block) (childStrings : List String) (inner : String),
      o.code = some c ∧
      List.Forall₂ (fun child s => child.toString asmPrinter dialect = .ok s)
        o.subObjects childStrings ∧
      inner = "code " ++ asmPrinter dialect c ++
        concatAll (childStrings.map (fun s => "\n" ++ s)) ∧
      o.toString asmPrinter dialect =
        .ok ("object \"" ++ o.name ++ "\" \x7b\n" ++ indent inner ++ "\n\x7d") ∧
      lines (indent inner) = (lines inner).map (fun l => "    " ++ l) ∧
      lines inner = lines ("code " ++ asmPrinter dialect c) ++ childStrings.flatMap lines ∧
      ('\n' ∉ o.name.data →
        lines ("object \"" ++ o.name ++ "\" \x7b\n" ++ indent inner ++ "\n\x7d") =
          ("object \"" ++ o.name ++ "\" \x7b") ::
            ((lines inner).map (fun l => "    " ++ l) ++ ["\x7d"])) ∧
      ∀ (path : List Object) (node : ObjectNode) (s : String),
        isChain o path = true → node ∈ (path.getLast?.getD o).subObjects →
        node.toString asmPrinter dialect = .ok s →
        ∀ l ∈ lines s,
          String.mk (List.replicate (4 * (path.length + 1)) ' ') ++ l ∈
            lines ("object \"" ++ o.name ++ "\" \x7b\n" ++ indent inner ++ "\n\x7d") := by
  obtain ⟨r, hr⟩ := (o.toString_result asmPrinter dialect).1 hcode
  obtain ⟨c, strs, hc, hf, hform, hlines⟩ := o.toString_ok_form asmPrinter dialect r hr
  have hinner := lines_concatAll strs ("code " ++ asmPrinter dialect c)
  refine ⟨c, strs, _, hc, hf, rfl, by rw [hr, hform],
    lines_indent _ (code_append_ne_empty _ _), hinner, ?_, ?_⟩
  · intro hname
    rw [← hform, hlines, hinner]
    have hfirst : lines ("object \"" ++ o.name ++ "\" \x7b") = ["object \"" ++ o.name ++ "\" \x7b"] := by
      apply lines_no_newline
      simp only [String.data_append, List.mem_append, not_or]
      exact ⟨⟨by decide, hname⟩, by decide⟩
    rw [hfirst]
    rfl
  · intro path node s hch hn hs l hl
    rw [← hform]
    exact Object.lines_nested asmPrinter dialect path o r hr hch node s hn hs l hl

theorem object_toString_shape_witness :
    exampleRoot.allHaveCode = true ∧
      ∃ (c : Block) (childStrings : List String) (inner : String),
        exampleRoot.code = some c ∧
        List.Forall₂ (fun child s => child.toString examplePrinter none = .ok s)
          exampleRoot.subObjects childStrings ∧
        inner = "code " ++ examplePrinter none c ++
          concatAll (childStrings.map (fun s => "\n" ++ s)) ∧
        exampleRoot.toString examplePrinter none =
          .ok ("object \"" ++ exampleRoot.name ++ "\" \x7b\n" ++ indent inner ++ "\n\x7d") := by
  obtain ⟨c, strs, inner, h1, h2, h3, h4, -⟩ :=
    object_toString_shape examplePrinter none exampleRoot (by decide)
  exact ⟨by decide, c, strs, inner, h1, h2, h3, h4⟩

end Yul
